import Mathlib

/-!
Shallow embedding of xiaonet.py: a minimal computation-graph engine with
affine layers (Input, Hidden), a Softmax activation, a CrossEntropy loss,
Kahn-style topological scheduling with data/label injection, and an SGD
update driver.

Numeric scalars are modelled by an arbitrary field; the transcendental
functions are passed explicitly wherever the source calls np.exp / np.log.
General theorems instantiate the reals, executable witnesses the rationals.

Arrays are modelled as nested lists (a numpy 1-D array is a `Vec`, a 2-D
array a `Mat` of rows, a 3-D array a `Tens3`).  numpy raises on shape
mismatches in arithmetic; the list embedding truncates to the shorter
operand instead, and every theorem that depends on elementwise arithmetic
carries explicit shape hypotheses under which both semantics agree.
-/

namespace Xiaonet

/-- Row vector: a 1-D numpy array. -/
abbrev Vec (α : Type) := List α

/-- Matrix: a 2-D numpy array, as a list of rows. -/
abbrev Mat (α : Type) := List (Vec α)

/-- 3-D numpy array (a stack of per-sample weight matrices). -/
abbrev Tens3 (α : Type) := List (Mat α)

variable {α : Type} [Field α]

/-- Elementwise product np.multiply of two 1-D arrays. -/
def vmul (v w : Vec α) : Vec α := (v.zip w).map (fun p => p.1 * p.2)

/-- Elementwise sum of two 1-D arrays (numpy + on equal shapes). -/
def vadd (v w : Vec α) : Vec α := (v.zip w).map (fun p => p.1 + p.2)

/-- Dot product: np.dot on two 1-D arguments. -/
def dot (v w : Vec α) : α := (vmul v w).sum

/-- np.dot of a 2-D and a 1-D array: matrix-vector product, one dot per row. -/
def matVec (M : Mat α) (v : Vec α) : Vec α := M.map (fun row => dot row v)

/-- np.dot of a 1-D and a 2-D array: vector-matrix product.  Entry j is
the dot of `v` with column j of `M`; the number of columns is read off the
first row, as in a rectangular numpy array. -/
def vecMat (v : Vec α) (M : Mat α) : Vec α :=
  (List.range (M.headD []).length).map
    (fun j => ((v.zip M).map (fun p => p.1 * p.2.getD j 0)).sum)

/-- np.mean of a 1-D array: sum divided by length. -/
def mean (v : Vec α) : α := v.sum / (v.length : α)

/-- Softmax._softmax: np.exp(x) / np.sum(np.exp(x), axis=0) on a 1-D row
(axis 0 of a 1-D array is the whole row). -/
def softmaxRow (expF : α → α) (v : Vec α) : Vec α :=
  v.map (fun x => expF x / (v.map expF).sum)

/-- A zero-filled 1-D buffer standing in for np.empty((n,)), whose contents
are unspecified until written. -/
def zeros1 (n : Nat) : Vec α := List.replicate n 0

/-- A zero-filled 2-D buffer standing in for np.empty((r, c)). -/
def zeros2 (r c : Nat) : Mat α := List.replicate r (zeros1 c)

/-- The four concrete layer classes of the source. -/
inductive Kind where
  | input
  | hidden
  | softmax
  | crossEntropy
deriving DecidableEq, Repr

/-- One graph node, the union of the attributes the four Python layer
classes carry.  `input_layer` is the optional predecessor id set by
Layer. __init__; `outbound_layers` is the successor list populated by the
predecessor-side append in Layer. __init__.  Attributes a given kind never
touches stay at their defaults.  CrossEntropy.forward rebinds the Python
attribute `value` from an array to a scalar; since no other node reads the
loss value as an array, the scalar lives in the separate field
`valueScalar`.  CrossEntropy.backward writes None into `gradient`. -/
structure Node (α : Type) where
  kind : Kind
  input_layer : Option Nat
  outbound_layers : List Nat
  X : Mat α
  W : Tens3 α
  biases : Mat α
  num_neurons : Nat
  num_images : Nat
  num_features : Nat
  num_classes : Nat
  n_inputs : Nat
  value : Mat α
  valueScalar : α
  tmp_value : Vec α
  ideal_output : Mat α
  softmax : Mat α
  input_gradients : Mat α
  W_gradients : Mat α
  b_gradients : Vec α
  gradients : Mat α
  gradient : Option (Mat α)
deriving DecidableEq, Repr

/-- A fresh unwired node with empty buffers (Python attribute defaults and
None references are modelled by empty lists / `none`). -/
def defaultNode : Node α :=
  { kind := Kind.input, input_layer := none, outbound_layers := []
  , X := [], W := [], biases := []
  , num_neurons := 0, num_images := 0, num_features := 0, num_classes := 0
  , n_inputs := 0
  , value := [], valueScalar := 0, tmp_value := [], ideal_output := []
  , softmax := [], input_gradients := [], W_gradients := [], b_gradients := []
  , gradients := [], gradient := none }

/-- The graph: nodes addressed by construction index. -/
abbrev Net (α : Type) := List (Node α)

/-- Replace node `i` by `f` of it (out-of-range is a no-op; in Python the
reference always exists). -/
def setAt (net : Net α) (i : Nat) (f : Node α → Node α) : Net α :=
  net.set i (f (net.getD i defaultNode))

/-- Input.__init__(weights, bias): derives num_images, num_features,
num_neurons from the weight tensor's shape (W.shape = (num_images,
num_features, num_neurons)) and preallocates the gradient and value
buffers.  X starts as None. -/
def inputInit (W : Tens3 α) (b : Mat α) : Node α :=
  let ni := W.length
  let nf := (W.headD []).length
  let nn := ((W.headD []).headD []).length
  { defaultNode with
      kind := Kind.input, input_layer := none
    , X := [], W := W, biases := b
    , num_neurons := nn, num_images := ni, num_features := nf
    , W_gradients := zeros2 ni nf, b_gradients := zeros1 ni
    , gradients := zeros2 ni nf, value := zeros2 ni nn }

/-- Hidden.__init__(input_layer, weights, bias): num_classes from
W.shape[-1], num_images inherited from the predecessor, buffers sized from
the predecessor's num_neurons. -/
def hiddenInit (pred : Node α) (predId : Nat) (W : Tens3 α) (b : Mat α) : Node α :=
  let ncl := ((W.headD []).headD []).length
  let ni := pred.num_images
  { defaultNode with
      kind := Kind.hidden, input_layer := some predId
    , X := [], W := W, biases := b
    , num_classes := ncl, num_images := ni
    , value := zeros2 ni ncl
    , W_gradients := zeros2 ni pred.num_neurons, b_gradients := zeros1 ni
    , gradients := zeros2 ni pred.num_neurons }

/-- Softmax.__init__(input_layer): class count and batch size inherited
from the predecessor. -/
def softmaxInit (pred : Node α) (predId : Nat) : Node α :=
  { defaultNode with
      kind := Kind.softmax, input_layer := some predId
    , num_classes := pred.num_classes, num_images := pred.num_images
    , value := zeros2 pred.num_images pred.num_classes
    , gradients := zeros2 pred.num_images pred.num_classes }

/-- CrossEntropy.__init__(input_layer): ideal_output starts as None, the
per-sample scratch tmp_value is preallocated. -/
def crossEntropyInit (pred : Node α) (predId : Nat) : Node α :=
  { defaultNode with
      kind := Kind.crossEntropy, input_layer := some predId
    , ideal_output := []
    , num_classes := pred.num_classes, num_images := pred.num_images
    , tmp_value := zeros1 pred.num_images }

/-- One constructor call in a graph-construction sequence.  `pred` indices
refer to previously constructed nodes. -/
inductive LSpec (α : Type) where
  | inputL (W : Tens3 α) (b : Mat α)
  | hiddenL (pred : Nat) (W : Tens3 α) (b : Mat α)
  | softmaxL (pred : Nat)
  | crossL (pred : Nat)

/-- Append a freshly constructed node and, when it has a predecessor,
append the new node's id to the predecessor's outbound_layers — the
side effect of Layer. __init__. -/
def appendNode (net : Net α) (pred : Option Nat) (nd : Node α) : Net α :=
  let newId := net.length
  let net1 := net ++ [nd]
  match pred with
  | none => net1
  | some p =>
      setAt net1 p (fun m => { m with outbound_layers := m.outbound_layers ++ [newId] })

/-- Execute one constructor call. -/
def buildStep (net : Net α) : LSpec α → Net α
  | LSpec.inputL W b => appendNode net none (inputInit W b)
  | LSpec.hiddenL p W b => appendNode net (some p) (hiddenInit (net.getD p defaultNode) p W b)
  | LSpec.softmaxL p => appendNode net (some p) (softmaxInit (net.getD p defaultNode) p)
  | LSpec.crossL p => appendNode net (some p) (crossEntropyInit (net.getD p defaultNode) p)

/-- Run a whole construction sequence from the empty graph. -/
def buildNet (specs : List (LSpec α)) : Net α := specs.foldl buildStep []

/-- Input._set(images): store the externally supplied batch as X, with no
shape validation. -/
def inputSet (images : Mat α) (nd : Node α) : Node α := { nd with X := images }

/-- Input.forward: for i in range(num_images), value[i] = X[i].W[i] +
biases[i]. -/
def inputForward (nd : Node α) : Node α :=
  { nd with value := (List.range nd.num_images).map (fun i =>
      vadd (vecMat (nd.X.getD i []) (nd.W.getD i [])) (nd.biases.getD i [])) }

/-- Hidden.forward: X is read from the predecessor's value, then the same
per-sample affine map as Input.forward. -/
def hiddenForward (pred nd : Node α) : Node α :=
  let X := pred.value
  { nd with X := X
          , value := (List.range nd.num_images).map (fun i =>
              vadd (vecMat (X.getD i []) (nd.W.getD i [])) (nd.biases.getD i [])) }

/-- The backward body shared verbatim by Input.backward and
Hidden.backward: read gradients from successor 0, then per sample
W_gradients[i] = W[i].ig[i], b_gradients[i] = ig[i].biases[i], and
gradients[i] = W_gradients[i] * b_gradients[i] elementwise.  The source
interleaves the three writes inside one loop; since each read refers only
to values fixed before the loop (plus the two per-iteration results), the
three result arrays are expressed as maps over the sample range. -/
def affineBackward (succ nd : Node α) : Node α :=
  let ig := succ.gradients
  let wg : Nat → Vec α := fun i => matVec (nd.W.getD i []) (ig.getD i [])
  let bg : Nat → α := fun i => dot (ig.getD i []) (nd.biases.getD i [])
  { nd with input_gradients := ig
          , W_gradients := (List.range nd.num_images).map wg
          , b_gradients := (List.range nd.num_images).map bg
          , gradients := (List.range nd.num_images).map
              (fun i => (wg i).map (fun x => x * bg i)) }

/-- Softmax.forward: per row of the predecessor's value, the normalized
exponentials. -/
def softmaxForward (expF : α → α) (pred nd : Node α) : Node α :=
  { nd with value := (List.range nd.num_images).map (fun i =>
      softmaxRow expF (pred.value.getD i [])) }

/-- Softmax.backward: gradients[i] = value[i].T; the transpose of a 1-D
numpy array is the array itself. -/
def softmaxBackward (nd : Node α) : Node α :=
  { nd with gradients := (List.range nd.num_images).map (fun i => nd.value.getD i []) }

/-- CrossEntropy.forward: cache the predecessor's value, set
tmp_value[i] = -np.sum(np.multiply(ideal_output[i], np.log(softmax[i])))
per sample, and the scalar value to the mean over the batch. -/
def crossEntropyForward (logF : α → α) (pred nd : Node α) : Node α :=
  let sm := pred.value
  let tmp := (List.range nd.num_images).map (fun i =>
    -(vmul (nd.ideal_output.getD i []) ((sm.getD i []).map logF)).sum)
  { nd with softmax := sm, tmp_value := tmp, valueScalar := mean tmp }

/-- CrossEntropy.backward: sets self.gradient = None and nothing else. -/
def crossEntropyBackward (nd : Node α) : Node α := { nd with gradient := none }

/-- The predecessor object this node's input_layer refers to.  Every
Hidden/Softmax/CrossEntropy node carries some predecessor; the default is
never exercised on graphs built by the constructors. -/
def predOf (net : Net α) (nd : Node α) : Node α :=
  net.getD (nd.input_layer.getD 0) defaultNode

/-- The successor object at outbound_layers[0] (Python would raise
IndexError on an empty successor list; theorems about backward carry a
nonemptiness hypothesis). -/
def succOf (net : Net α) (nd : Node α) : Node α :=
  net.getD (nd.outbound_layers.getD 0 0) defaultNode

/-- Dynamic dispatch of forward() over the four classes. -/
def nodeForward (expF logF : α → α) (net : Net α) (i : Nat) : Node α :=
  let nd := net.getD i defaultNode
  match nd.kind with
  | Kind.input => inputForward nd
  | Kind.hidden => hiddenForward (predOf net nd) nd
  | Kind.softmax => softmaxForward expF (predOf net nd) nd
  | Kind.crossEntropy => crossEntropyForward logF (predOf net nd) nd

/-- n.forward() as a graph transformer. -/
def forwardAt (expF logF : α → α) (net : Net α) (i : Nat) : Net α :=
  net.set i (nodeForward expF logF net i)

/-- Dynamic dispatch of backward() over the four classes. -/
def nodeBackward (net : Net α) (i : Nat) : Node α :=
  let nd := net.getD i defaultNode
  match nd.kind with
  | Kind.input => affineBackward (succOf net nd) nd
  | Kind.hidden => affineBackward (succOf net nd) nd
  | Kind.softmax => softmaxBackward nd
  | Kind.crossEntropy => crossEntropyBackward nd

/-- n.backward() as a graph transformer. -/
def backwardAt (net : Net α) (i : Nat) : Net α :=
  net.set i (nodeBackward net i)

/-- The successor list the scheduler traverses, read off the stored
outbound_layers of node `i`. -/
def outboundOf (net : Net α) (i : Nat) : List Nat :=
  (net.getD i defaultNode).outbound_layers

/-- The adjacency structure G built by topological_sort, with the in- and
out-edge sets of every key.  Python stores a dict of fresh empty sets
keyed on demand; total functions defaulting to the empty set make the
"if n not in G" key initializations no-ops, so they are dropped. -/
structure GAdj where
  gin : Nat → Finset Nat
  gout : Nat → Finset Nat

/-- Record one successor edge n -> m in both adjacency directions. -/
def addEdge (n : Nat) (g : GAdj) (m : Nat) : GAdj :=
  { gout := Function.update g.gout n (insert m (g.gout n))
  , gin := Function.update g.gin m (insert n (g.gin m)) }

/-- The body of "for m in n.outbound_layers" in the G-building loop:
record the edge n -> m in both directions. -/
def addEdges (outb : Nat → List Nat) (n : Nat) (g : GAdj) : GAdj :=
  (outb n).foldl (addEdge n) g

/-- The G-building while-loop of topological_sort: pop the queue head,
record its out-edges, and append every successor to the queue — the source
appends unconditionally, whether or not the successor was seen before.
The loop has no termination guarantee of its own, so it is run on explicit
fuel; `none` means the fuel was exhausted with the queue still nonempty. -/
def buildG (outb : Nat → List Nat) : Nat → List Nat → GAdj → Option GAdj
  | _, [], g => some g
  | 0, _ :: _, _ => none
  | fuel + 1, n :: rest, g => buildG outb fuel (rest ++ outb n) (addEdges outb n g)

/-- The sequence of nodes the G-building loop pops, separated from the
adjacency bookkeeping (the queue evolution never depends on G). -/
def bfsTrace (outb : Nat → List Nat) : Nat → List Nat → Option (List Nat)
  | _, [] => some []
  | 0, _ :: _ => none
  | fuel + 1, n :: rest => (bfsTrace outb fuel (rest ++ outb n)).map (fun t => n :: t)

/-- The data/label injection performed on a node as it is popped from the
ready set: an Input node gets feed_dict[n] stored as X (Python raises
KeyError when an Input key is missing from the feed; entries always carry
one), a CrossEntropy node gets ideal_output and n_inputs = 1. -/
def inject (feed : List (Nat × Mat α)) (ideal : Mat α) (net : Net α) (i : Nat) : Net α :=
  setAt net i (fun nd =>
    match nd.kind with
    | Kind.input =>
        inputSet (((feed.find? (fun p => p.1 = i)).map Prod.snd).getD []) nd
    | Kind.crossEntropy => { nd with ideal_output := ideal, n_inputs := 1 }
    | _ => nd)

/-- One edge-processing step of the Kahn loop body: remove edge n -> m
from both directions and, if m's in-set has emptied, add m to the ready
set.  Python's set.remove raises KeyError when the element is absent; the
total erase agrees with it whenever the edge is present, which the
scheduling invariants guarantee on the graphs the theorems cover. -/
def kahnEdge (n : Nat) (st : Finset Nat × GAdj) (m : Nat) : Finset Nat × GAdj :=
  let g2 := st.2
  let g3 : GAdj :=
    { gout := Function.update g2.gout n ((g2.gout n).erase m)
    , gin := Function.update g2.gin m ((g2.gin m).erase n) }
  (if g3.gin m = ∅ then insert m st.1 else st.1, g3)

/-- The while-loop of Kahn's algorithm: pop an arbitrary ready node
(Python set.pop; the arbitrary choice is modelled by the `pick`
parameter), inject its data, append it to L, and process its out-edges.
Fueled like the first loop; `none` is fuel exhaustion. -/
def kahnAux (pick : Finset Nat → Nat) (outb : Nat → List Nat)
    (feed : List (Nat × Mat α)) (ideal : Mat α) :
    Nat → Finset Nat → GAdj → List Nat → Net α → Option (List Nat × Net α)
  | fuel, S, g, L, net =>
    if S = ∅ then some (L, net)
    else
      match fuel with
      | 0 => none
      | fuel + 1 =>
          let n := pick S
          let net1 := inject feed ideal net n
          let st := (outb n).foldl (kahnEdge n) (S.erase n, g)
          kahnAux pick outb feed ideal fuel st.1 st.2 (L ++ [n]) net1

/-- topological_sort(feed_dict, ideal_output): build the adjacency
structure by the queue traversal from the feed keys, then run Kahn's loop
seeded with the feed keys, injecting data into Input nodes and the label
batch into the CrossEntropy node as they are ordered.  Both while-loops
run on the shared fuel parameter. -/
def topological_sort (pick : Finset Nat → Nat) (fuel : Nat) (net : Net α)
    (feed : List (Nat × Mat α)) (ideal : Mat α) : Option (List Nat × Net α) :=
  let input_layers := feed.map Prod.fst
  match buildG (outboundOf net) fuel input_layers ⟨fun _ => ∅, fun _ => ∅⟩ with
  | none => none
  | some g => kahnAux pick (outboundOf net) feed ideal fuel input_layers.toFinset g [] net

/-- A numpy ndarray as the SGD update sees it: a shape plus a flat data
buffer. -/
structure NTensor (α : Type) where
  shape : List Nat
  data : List α
deriving DecidableEq, Repr

/-- Scalar multiple of an ndarray. -/
def NTensor.smul (c : α) (t : NTensor α) : NTensor α :=
  ⟨t.shape, t.data.map (fun x => c * x)⟩

/-- Elementwise difference of two ndarrays of equal shape. -/
def NTensor.sub (t u : NTensor α) : NTensor α :=
  ⟨t.shape, (t.data.zip u.data).map (fun p => p.1 - p.2)⟩

/-- A 2-D gradient buffer as an ndarray. -/
def matNT (m : Mat α) : NTensor α := ⟨[m.length, (m.headD []).length], m.flatten⟩

/-- A 1-D gradient buffer as an ndarray. -/
def vecNT (v : Vec α) : NTensor α := ⟨[v.length], v⟩

/-- The gradient harvest of train_SGD: the (W_gradients, b_gradients)
pairs of the given layers in order, flattened into one list. -/
def gradientHarvest (net : Net α) (ids : List Nat) : List (NTensor α) :=
  ids.flatMap (fun i =>
    [matNT (net.getD i defaultNode).W_gradients, vecNT (net.getD i defaultNode).b_gradients])

/-- The SGD update loop: for n in range(len(trainables)), subtract
learning_rate * partials[n] in place when the shapes agree and do nothing
otherwise.  When trainables is longer than partials the Python loop hits
an IndexError at position len(partials); that raise is modelled by
`none`. -/
def sgdUpdate (lr : α) (trainables partials : List (NTensor α)) : Option (List (NTensor α)) :=
  if partials.length < trainables.length then none
  else
    some ((List.range trainables.length).map (fun n =>
      let t := trainables.getD n ⟨[], []⟩
      let p := partials.getD n ⟨[], []⟩
      if t.shape = p.shape then t.sub (NTensor.smul lr p) else t))

/-- train_SGD: obtain the order (with injection), run forward over it,
backward over its reverse, harvest gradients from all but the last two
layers, apply the guarded SGD update to the caller's trainables, and
return the last layer's scalar value (with the updated trainables and the
final graph state, which Python mutates in place). -/
def train_SGD (pick : Finset Nat → Nat) (expF logF : α → α) (fuel : Nat)
    (net : Net α) (feed : List (Nat × Mat α)) (ideal : Mat α)
    (trainables : List (NTensor α)) (lr : α) :
    Option (List (NTensor α) × α × Net α) :=
  match topological_sort pick fuel net feed ideal with
  | none => none
  | some (sorted, net1) =>
      let net2 := sorted.foldl (fun nt i => forwardAt expF logF nt i) net1
      let net3 := sorted.reverse.foldl (fun nt i => backwardAt nt i) net2
      let layers := sorted.take (sorted.length - 2)
      let partials := gradientHarvest net3 layers
      match sgdUpdate lr trainables partials with
      | none => none
      | some tr2 => some (tr2, (net3.getD (sorted.getLastD 0) defaultNode).valueScalar, net3)

/-! Helper lemmas about list indexing and sums, used to relate the
looped/vectorized numpy computations to their pointwise mathematical
descriptions. -/

lemma getD_map_range {β : Type} (f : Nat → β) {n i : Nat} (h : i < n) (d : β) :
    ((List.range n).map f).getD i d = f i := by
  rw [List.getD_eq_getElem _ _ (by simpa using h)]
  simp

lemma getD_map_of_lt {β γ : Type} (f : β → γ) (v : List β) {i : Nat}
    (h : i < v.length) (d : γ) (e : β) :
    (v.map f).getD i d = f (v.getD i e) := by
  rw [List.getD_eq_getElem _ _ (by simpa using h), List.getD_eq_getElem _ _ h]
  simp

lemma getD_zip {β γ : Type} (v : List β) (w : List γ) {j : Nat}
    (h1 : j < v.length) (h2 : j < w.length) (d1 : β) (d2 : γ) :
    (v.zip w).getD j (d1, d2) = (v.getD j d1, w.getD j d2) := by
  rw [List.getD_eq_getElem _ _ (by simp [List.length_zip]; omega),
    List.getD_eq_getElem _ _ h1, List.getD_eq_getElem _ _ h2]
  simp [List.getElem_zip]

lemma getD_set_self {β : Type} (l : List β) {i : Nat} (v d : β) (h : i < l.length) :
    (l.set i v).getD i d = v := by
  rw [List.getD_eq_getElem _ _ (by simpa using h)]
  simp [List.getElem_set]

lemma getD_set_ne {β : Type} (l : List β) {i j : Nat} (v d : β) (h : i ≠ j) :
    (l.set i v).getD j d = l.getD j d := by
  rcases Nat.lt_or_ge j l.length with hj | hj
  · rw [List.getD_eq_getElem _ _ (by simpa using hj), List.getD_eq_getElem _ _ hj]
    simp [List.getElem_set, h]
  · rw [List.getD_eq_default _ _ (by simpa using hj), List.getD_eq_default _ _ hj]

lemma sum_map_zip {β γ δ : Type} [AddCommMonoid δ] (g : β → γ → δ) (d1 : β) (d2 : γ) :
    ∀ (v : List β) (w : List γ), v.length = w.length →
      ((v.zip w).map (fun p => g p.1 p.2)).sum
        = ∑ k ∈ Finset.range v.length, g (v.getD k d1) (w.getD k d2)
  | [], _, _ => by simp
  | _ :: _, [], h => by simp at h
  | x :: xs, y :: ys, h => by
      have h2 : xs.length = ys.length := by simpa using h
      simp only [List.zip_cons_cons, List.map_cons, List.sum_cons, List.length_cons]
      rw [sum_map_zip g d1 d2 xs ys h2, Finset.sum_range_succ']
      simp [add_comm]

lemma sum_map_getD {β δ : Type} [AddCommMonoid δ] (f : β → δ) (d : β) :
    ∀ v : List β, (v.map f).sum = ∑ k ∈ Finset.range v.length, f (v.getD k d)
  | [] => by simp
  | x :: xs => by
      simp only [List.map_cons, List.sum_cons, List.length_cons]
      rw [sum_map_getD f d xs, Finset.sum_range_succ']
      simp [add_comm]

lemma dot_eq_sum (v w : Vec α) (h : v.length = w.length) :
    dot v w = ∑ k ∈ Finset.range v.length, v.getD k 0 * w.getD k 0 := by
  unfold dot vmul
  exact sum_map_zip (fun a b => a * b) 0 0 v w h

lemma length_vecMat (v : Vec α) (M : Mat α) :
    (vecMat v M).length = (M.headD []).length := by
  simp [vecMat]

lemma length_matVec (M : Mat α) (v : Vec α) : (matVec M v).length = M.length := by
  simp [matVec]

lemma getD_vecMat (v : Vec α) (M : Mat α) {j : Nat} (hj : j < (M.headD []).length)
    (hlen : v.length = M.length) :
    (vecMat v M).getD j 0
      = ∑ k ∈ Finset.range v.length, v.getD k 0 * (M.getD k []).getD j 0 := by
  unfold vecMat
  rw [getD_map_range _ hj]
  exact sum_map_zip (fun a row => a * row.getD j 0) 0 [] v M hlen

lemma getD_matVec (M : Mat α) (v : Vec α) {i : Nat} (h : i < M.length) :
    (matVec M v).getD i 0 = dot (M.getD i []) v := by
  unfold matVec
  exact getD_map_of_lt _ M h 0 []

lemma getD_vadd (v w : Vec α) {j : Nat} (h1 : j < v.length) (h2 : j < w.length) :
    (vadd v w).getD j 0 = v.getD j 0 + w.getD j 0 := by
  unfold vadd
  rw [getD_map_of_lt _ _ (by simp [List.length_zip]; omega) 0 ((0 : α), (0 : α)),
    getD_zip v w h1 h2]

/-- The entrywise reading of one affine row: entry j of x·W + b. -/
lemma affine_entry (x : Vec α) (w : Mat α) (b : Vec α) {j : Nat}
    (hlen : x.length = w.length) (hj : j < (w.headD []).length) (hjb : j < b.length) :
    (vadd (vecMat x w) b).getD j 0
      = (∑ k ∈ Finset.range x.length, x.getD k 0 * (w.getD k []).getD j 0) + b.getD j 0 := by
  rw [getD_vadd _ _ (by rw [length_vecMat]; exact hj) hjb, getD_vecMat _ _ hj hlen]

/-- C5: for every sample index i, the affine forward pass — Input and
Hidden alike — writes value[i] = X[i] · W[i] + biases[i] (vector-matrix
product plus bias), stated entrywise; Hidden first rebinds X to its
predecessor's value at forward time, while Input works on the batch that
_set injected. -/
theorem C5_affine_forward_value :
    (∀ (nd : Node α) (i j : Nat), i < nd.num_images →
      (nd.X.getD i []).length = (nd.W.getD i []).length →
      j < ((nd.W.getD i []).headD []).length →
      j < (nd.biases.getD i []).length →
      ((inputForward nd).value.getD i []).getD j 0 =
        (∑ k ∈ Finset.range (nd.X.getD i []).length,
          (nd.X.getD i []).getD k 0 * ((nd.W.getD i []).getD k []).getD j 0)
        + (nd.biases.getD i []).getD j 0)
    ∧ (∀ (pred nd : Node α), (hiddenForward pred nd).X = pred.value)
    ∧ (∀ (pred nd : Node α) (i j : Nat), i < nd.num_images →
      (pred.value.getD i []).length = (nd.W.getD i []).length →
      j < ((nd.W.getD i []).headD []).length →
      j < (nd.biases.getD i []).length →
      ((hiddenForward pred nd).value.getD i []).getD j 0 =
        (∑ k ∈ Finset.range (pred.value.getD i []).length,
          (pred.value.getD i []).getD k 0 * ((nd.W.getD i []).getD k []).getD j 0)
        + (nd.biases.getD i []).getD j 0)
    ∧ (∀ (images : Mat α) (nd : Node α), (inputSet images nd).X = images) := by
  refine ⟨?_, ?_, ?_, ?_⟩
  · intro nd i j hi hlen hj hjb
    unfold inputForward
    simp only
    rw [getD_map_range _ hi]
    exact affine_entry _ _ _ hlen hj hjb
  · intro pred nd
    rfl
  · intro pred nd i j hi hlen hj hjb
    unfold hiddenForward
    simp only
    rw [getD_map_range _ hi]
    exact affine_entry _ _ _ hlen hj hjb
  · intro images nd
    rfl

/-- C6: backward of an affine layer (both the Input and the Hidden branch
of the dispatch) reads gradients from the successor at index 0 of
outbound_layers, and per sample i computes W_gradients[i] = W[i] · ig[i]
(rowwise dot), b_gradients[i] = ig[i] · biases[i], and gradients[i] =
W_gradients[i] * b_gradients[i] elementwise. -/
theorem C6_affine_backward (net : Net α) (idx : Nat) (nd : Node α)
    (hnd : nd = net.getD idx defaultNode)
    (hkind : nd.kind = Kind.input ∨ nd.kind = Kind.hidden)
    (hsucc : nd.outbound_layers ≠ []) :
    ∃ ig : Mat α,
      ig = (net.getD (nd.outbound_layers.getD 0 0) defaultNode).gradients ∧
      (nodeBackward net idx).input_gradients = ig ∧
      ∀ i : Nat, i < nd.num_images →
        (∀ k : Nat, k < (nd.W.getD i []).length →
          ((nd.W.getD i []).getD k []).length = (ig.getD i []).length →
          ((nodeBackward net idx).W_gradients.getD i []).getD k 0
            = ∑ r ∈ Finset.range ((nd.W.getD i []).getD k []).length,
                ((nd.W.getD i []).getD k []).getD r 0 * (ig.getD i []).getD r 0) ∧
        ((ig.getD i []).length = (nd.biases.getD i []).length →
          (nodeBackward net idx).b_gradients.getD i 0
            = ∑ r ∈ Finset.range (ig.getD i []).length,
                (ig.getD i []).getD r 0 * (nd.biases.getD i []).getD r 0) ∧
        (∀ k : Nat, k < (nd.W.getD i []).length →
          ((nodeBackward net idx).gradients.getD i []).getD k 0
            = ((nodeBackward net idx).W_gradients.getD i []).getD k 0
              * (nodeBackward net idx).b_gradients.getD i 0) := by
  have hdisp : nodeBackward net idx = affineBackward (succOf net nd) nd := by
    subst hnd
    simp only [nodeBackward]
    rcases hkind with h | h <;> rw [h]
  refine ⟨(succOf net nd).gradients, rfl, ?_, ?_⟩
  · rw [hdisp]
    rfl
  · intro i hi
    refine ⟨?_, ?_, ?_⟩
    · intro k hk hkl
      rw [hdisp]
      unfold affineBackward
      simp only
      rw [getD_map_range _ hi, getD_matVec _ _ hk, dot_eq_sum _ _ hkl]
    · intro hl
      rw [hdisp]
      unfold affineBackward
      simp only
      rw [getD_map_range _ hi, dot_eq_sum _ _ hl]
    · intro k hk
      rw [hdisp]
      unfold affineBackward
      simp only
      rw [getD_map_range _ hi, getD_map_range _ hi, getD_map_range _ hi,
        getD_map_of_lt _ _ (by rw [length_matVec]; exact hk) 0 (0 : α)]

/-- C4: Softmax.forward writes into value[i] the row whose entry j is
exp(input[i,j]) divided by the sum of exp over that row, the input being
the predecessor's value; in particular the input row [0, 0] yields
[0.5, 0.5]. -/
theorem C4_softmax_forward (expF : α → α) :
    (∀ (pred nd : Node α) (i j : Nat), i < nd.num_images →
       j < (pred.value.getD i []).length →
       ((softmaxForward expF pred nd).value.getD i []).getD j 0
         = expF ((pred.value.getD i []).getD j 0)
           / ∑ k ∈ Finset.range (pred.value.getD i []).length,
               expF ((pred.value.getD i []).getD k 0))
    ∧ (∀ (pred nd : Node ℝ), pred.value = [[0, 0]] → nd.num_images = 1 →
        (softmaxForward Real.exp pred nd).value = [[1/2, 1/2]]) := by
  constructor
  · intro pred nd i j hi hj
    unfold softmaxForward
    simp only
    rw [getD_map_range _ hi]
    unfold softmaxRow
    rw [getD_map_of_lt _ _ hj 0 0, sum_map_getD expF 0]
  · intro pred nd hv hni
    unfold softmaxForward softmaxRow
    simp only [hv, hni]
    norm_num [List.range_succ, Real.exp_zero]

/-- C3: CrossEntropy.forward sets tmp_value[i] to minus the sum over
classes of ideal_output[i,c] times log of the predecessor's value[i,c],
and the scalar value to the mean (sum over the batch divided by
num_images) of tmp_value; in particular a softmax output [0.5, 0.5] with
target [1, 0] gives loss -log(0.5). -/
theorem C3_cross_entropy_forward (logF : α → α) :
    (∀ (pred nd : Node α) (i : Nat), i < nd.num_images →
       (nd.ideal_output.getD i []).length = (pred.value.getD i []).length →
       (crossEntropyForward logF pred nd).tmp_value.getD i 0
         = -∑ c ∈ Finset.range (nd.ideal_output.getD i []).length,
             (nd.ideal_output.getD i []).getD c 0
               * logF ((pred.value.getD i []).getD c 0))
    ∧ (∀ (pred nd : Node α),
        (crossEntropyForward logF pred nd).valueScalar
          = ((crossEntropyForward logF pred nd).tmp_value).sum / (nd.num_images : α))
    ∧ (∀ (pred nd : Node ℝ), pred.value = [[1/2, 1/2]] → nd.ideal_output = [[1, 0]] →
        nd.num_images = 1 →
        (crossEntropyForward Real.log pred nd).valueScalar = -Real.log (1/2)) := by
  refine ⟨?_, ?_, ?_⟩
  · intro pred nd i hi hlen
    unfold crossEntropyForward
    simp only
    rw [getD_map_range _ hi]
    unfold vmul
    rw [sum_map_zip (fun a b => a * b) 0 0 _ _ (by simpa using hlen)]
    congr 1
    refine Finset.sum_congr rfl (fun c hc => ?_)
    rw [getD_map_of_lt logF _ (by rw [← hlen]; exact Finset.mem_range.1 hc) 0 0]
  · intro pred nd
    unfold crossEntropyForward mean
    simp
  · intro pred nd hv hio hni
    unfold crossEntropyForward mean vmul
    simp only [hv, hio, hni]
    norm_num [List.range_succ]

/-- Dispatch equation: forward on an Input node. -/
lemma nodeForward_input (expF logF : α → α) (net : Net α) (i : Nat)
    (h : (net.getD i defaultNode).kind = Kind.input) :
    nodeForward expF logF net i = inputForward (net.getD i defaultNode) := by
  simp only [nodeForward, h]

/-- Dispatch equation: forward on a Hidden node. -/
lemma nodeForward_hidden (expF logF : α → α) (net : Net α) (i : Nat)
    (h : (net.getD i defaultNode).kind = Kind.hidden) :
    nodeForward expF logF net i
      = hiddenForward (predOf net (net.getD i defaultNode)) (net.getD i defaultNode) := by
  simp only [nodeForward, h]

/-- Dispatch equation: forward on a Softmax node. -/
lemma nodeForward_softmax (expF logF : α → α) (net : Net α) (i : Nat)
    (h : (net.getD i defaultNode).kind = Kind.softmax) :
    nodeForward expF logF net i
      = softmaxForward expF (predOf net (net.getD i defaultNode)) (net.getD i defaultNode) := by
  simp only [nodeForward, h]

/-- Dispatch equation: forward on a CrossEntropy node. -/
lemma nodeForward_crossEntropy (expF logF : α → α) (net : Net α) (i : Nat)
    (h : (net.getD i defaultNode).kind = Kind.crossEntropy) :
    nodeForward expF logF net i
      = crossEntropyForward logF (predOf net (net.getD i defaultNode)) (net.getD i defaultNode) := by
  simp only [nodeForward, h]

/-- C8: for every layer kind (the dispatch covers Input, Hidden, Softmax
and CrossEntropy), running forward() twice in a row from the same state
produces the same value — and the same scalar value — as running it once:
forward overwrites its output and accumulates nothing.  The hypothesis
rules out a node acting as its own predecessor, which the constructors
cannot produce. -/
theorem C8_forward_idempotent (expF logF : α → α) (net : Net α) (i : Nat)
    (hself : (net.getD i defaultNode).input_layer.getD 0 ≠ i) :
    ((forwardAt expF logF (forwardAt expF logF net i) i).getD i defaultNode).value
      = ((forwardAt expF logF net i).getD i defaultNode).value
    ∧ ((forwardAt expF logF (forwardAt expF logF net i) i).getD i defaultNode).valueScalar
      = ((forwardAt expF logF net i).getD i defaultNode).valueScalar := by
  by_cases hl : i < net.length
  · have hnd1 : (forwardAt expF logF net i).getD i defaultNode
        = nodeForward expF logF net i := getD_set_self net _ _ hl
    have hl1 : i < (forwardAt expF logF net i).length := by
      simpa [forwardAt] using hl
    have hnd2 : (forwardAt expF logF (forwardAt expF logF net i) i).getD i defaultNode
        = nodeForward expF logF (forwardAt expF logF net i) i :=
      getD_set_self _ _ _ hl1
    have hpred :
        (forwardAt expF logF net i).getD
            ((net.getD i defaultNode).input_layer.getD 0) defaultNode
          = net.getD ((net.getD i defaultNode).input_layer.getD 0) defaultNode :=
      getD_set_ne net _ _ (Ne.symm hself)
    rw [hnd2, hnd1]
    rcases hk : (net.getD i defaultNode).kind with _ | _ | _ | _
    · have hk1 : ((forwardAt expF logF net i).getD i defaultNode).kind = Kind.input := by
        rw [hnd1, nodeForward_input expF logF net i hk]; exact hk
      rw [nodeForward_input expF logF _ i hk1, hnd1, nodeForward_input expF logF net i hk]
      exact ⟨rfl, rfl⟩
    · have hk1 : ((forwardAt expF logF net i).getD i defaultNode).kind = Kind.hidden := by
        rw [hnd1, nodeForward_hidden expF logF net i hk]; exact hk
      rw [nodeForward_hidden expF logF _ i hk1, hnd1, nodeForward_hidden expF logF net i hk]
      have hpp : predOf (forwardAt expF logF net i)
          (hiddenForward (predOf net (net.getD i defaultNode)) (net.getD i defaultNode))
            = net.getD ((net.getD i defaultNode).input_layer.getD 0) defaultNode := by
        unfold predOf
        exact hpred
      rw [hpp]
      exact ⟨rfl, rfl⟩
    · have hk1 : ((forwardAt expF logF net i).getD i defaultNode).kind = Kind.softmax := by
        rw [hnd1, nodeForward_softmax expF logF net i hk]; exact hk
      rw [nodeForward_softmax expF logF _ i hk1, hnd1, nodeForward_softmax expF logF net i hk]
      have hpp : predOf (forwardAt expF logF net i)
          (softmaxForward expF (predOf net (net.getD i defaultNode)) (net.getD i defaultNode))
            = net.getD ((net.getD i defaultNode).input_layer.getD 0) defaultNode := by
        unfold predOf
        exact hpred
      rw [hpp]
      exact ⟨rfl, rfl⟩
    · have hk1 : ((forwardAt expF logF net i).getD i defaultNode).kind = Kind.crossEntropy := by
        rw [hnd1, nodeForward_crossEntropy expF logF net i hk]; exact hk
      rw [nodeForward_crossEntropy expF logF _ i hk1, hnd1,
        nodeForward_crossEntropy expF logF net i hk]
      have hpp : predOf (forwardAt expF logF net i)
          (crossEntropyForward logF (predOf net (net.getD i defaultNode)) (net.getD i defaultNode))
            = net.getD ((net.getD i defaultNode).input_layer.getD 0) defaultNode := by
        unfold predOf
        exact hpred
      rw [hpp]
      exact ⟨rfl, rfl⟩
  · have hs : ∀ v : Node α, net.set i v = net := fun v =>
      List.set_eq_of_length_le (by omega)
    simp [forwardAt, hs]

/-- The 2-row batch fed to a 1-sample Input layer in the C9 refutation. -/
def mismatchedInput : Node ℚ :=
  inputSet [[1, 2], [3, 4]] (inputInit [[[1, 0], [0, 1]]] [[0, 0]])

/-- The same layer fed the honestly sized 1-row batch. -/
def truncatedInput : Node ℚ :=
  inputSet [[1, 2]] (inputInit [[[1, 0], [0, 1]]] [[0, 0]])

/-- C9 (refuted on the code): neither _set, the scheduler's injection, nor
forward validates the injected batch shape.  An Input layer declared with
num_images = 1 accepts a 2-row batch and silently computes exactly the
value of the truncated 1-row batch — no error, the extra row is ignored. -/
theorem C9_shape_mismatch_silently_truncates :
    (inputForward mismatchedInput).value = (inputForward truncatedInput).value
    ∧ (inputForward mismatchedInput).value = [[1, 2]]
    ∧ mismatchedInput.num_images = 1 ∧ mismatchedInput.X.length = 2 := by
  refine ⟨?_, ?_, rfl, rfl⟩ <;>
    norm_num [mismatchedInput, truncatedInput, inputForward, inputSet, inputInit,
      vecMat, vadd, vmul, dot, zeros1, zeros2, List.range_succ]

/-- C7: the SGD update loop, run with the caller's trainables against the
harvested partials (covering every position of trainables): it raises no
fault, keeps the list length, subtracts learning_rate times the n-th
partial from trainables[n] when the two shapes agree — stated both as the
ndarray operation and entrywise — and leaves trainables[n] untouched when
the shapes differ. -/
theorem C7_sgd_update_skips_mismatch (lr : α) (trainables partials : List (NTensor α))
    (n : Nat) (hn : n < trainables.length) (hlen : trainables.length ≤ partials.length) :
    ∃ res : List (NTensor α),
      sgdUpdate lr trainables partials = some res ∧
      res.length = trainables.length ∧
      ((trainables.getD n ⟨[], []⟩).shape = (partials.getD n ⟨[], []⟩).shape →
        res.getD n ⟨[], []⟩
          = NTensor.sub (trainables.getD n ⟨[], []⟩)
              (NTensor.smul lr (partials.getD n ⟨[], []⟩)) ∧
        ∀ k : Nat, k < (trainables.getD n ⟨[], []⟩).data.length →
          k < (partials.getD n ⟨[], []⟩).data.length →
          (res.getD n ⟨[], []⟩).data.getD k 0
            = (trainables.getD n ⟨[], []⟩).data.getD k 0
              - lr * (partials.getD n ⟨[], []⟩).data.getD k 0) ∧
      ((trainables.getD n ⟨[], []⟩).shape ≠ (partials.getD n ⟨[], []⟩).shape →
        res.getD n ⟨[], []⟩ = trainables.getD n ⟨[], []⟩) := by
  refine ⟨(List.range trainables.length).map (fun n2 =>
      let t := trainables.getD n2 ⟨[], []⟩
      let p := partials.getD n2 ⟨[], []⟩
      if t.shape = p.shape then t.sub (NTensor.smul lr p) else t), ?_, ?_, ?_, ?_⟩
  · unfold sgdUpdate
    rw [if_neg (by omega)]
  · simp
  · intro hsh
    have hres : ((List.range trainables.length).map (fun n2 =>
        let t := trainables.getD n2 ⟨[], []⟩
        let p := partials.getD n2 ⟨[], []⟩
        if t.shape = p.shape then t.sub (NTensor.smul lr p) else t)).getD n ⟨[], []⟩
          = NTensor.sub (trainables.getD n ⟨[], []⟩)
              (NTensor.smul lr (partials.getD n ⟨[], []⟩)) := by
      rw [getD_map_range _ hn]
      simp only [if_pos hsh]
    refine ⟨hres, fun k hk hkp => ?_⟩
    rw [hres]
    unfold NTensor.sub NTensor.smul
    simp only
    rw [getD_map_of_lt _ _ (by rw [List.length_zip, List.length_map]; omega) 0
        ((0 : α), (0 : α)),
      getD_zip _ _ hk (by rw [List.length_map]; omega), getD_map_of_lt _ _ hkp 0 (0 : α)]
  · intro hsh
    rw [getD_map_range _ hn]
    simp only [if_neg hsh]

/-- The one-node graph whose only node lists itself as successor — the
self-loop a cyclically rewired layer object presents to the scheduler. -/
def cyclicNet : Net ℚ := [{ defaultNode with outbound_layers := [0] }]

/-- C2 (refuted on the code): on a cyclic graph the adjacency-building
loop of topological_sort re-appends the looping node on every visit, so
for every fuel bound it is still running: the scheduler never reports any
graph-construction error and never returns an ordering either — it simply
never terminates, with the Kahn phase and the passes never reached. -/
theorem C2_cycle_reports_no_error :
    (∀ (fuel : Nat) (g : GAdj), buildG (outboundOf cyclicNet) fuel [0] g = none)
    ∧ ∀ (pick : Finset Nat → Nat) (fuel : Nat) (feedX ideal : Mat ℚ),
        topological_sort pick fuel cyclicNet [(0, feedX)] ideal = none := by
  have h : ∀ (fuel : Nat) (g : GAdj), buildG (outboundOf cyclicNet) fuel [0] g = none := by
    intro fuel
    induction fuel with
    | zero => intro g; rfl
    | succ f ih =>
        intro g
        have hstep : buildG (outboundOf cyclicNet) (f + 1) [0] g
            = buildG (outboundOf cyclicNet) f ([] ++ outboundOf cyclicNet 0)
                (addEdges (outboundOf cyclicNet) 0 g) := rfl
        rw [hstep]
        exact ih _
  refine ⟨h, fun pick fuel feedX ideal => ?_⟩
  unfold topological_sort
  simp only [List.map_cons, List.map_nil]
  rw [h fuel]

/-! Wiring: the predecessor/successor structure of the graph, its symmetry
on constructor-built graphs, and its preservation by every engine
operation. -/

/-- The wiring skeleton of the graph: predecessor pointer and successor
list of every node. -/
def wiring (net : Net α) : List (Option Nat × List Nat) :=
  net.map (fun nd => (nd.input_layer, nd.outbound_layers))

/-- The predecessor/successor relation is symmetric. -/
def symWiring (net : Net α) : Prop :=
  ∀ i j, j ∈ outboundOf net i ↔ (net.getD j defaultNode).input_layer = some i

/-- Successor edges go from lower to strictly higher construction indices
and stay inside the graph. -/
def edgesBelow (net : Net α) : Prop :=
  ∀ i j, j ∈ outboundOf net i → i < j ∧ j < net.length

/-- Predecessor pointers go strictly downwards. -/
def predBelow (net : Net α) : Prop :=
  ∀ j p, (net.getD j defaultNode).input_layer = some p → p < j

lemma getD_append_at {β : Type} (l : List β) (v d : β) :
    (l ++ [v]).getD l.length d = v := by
  rw [List.getD_append_right _ _ _ _ (le_refl _)]
  simp

/-- Indexing after appending a node with a predecessor-side update. -/
lemma getD_appendNode_some (net : Net α) (p : Nat) (nd : Node α)
    (hp : p < net.length) (j : Nat) :
    (appendNode net (some p) nd).getD j defaultNode
      = if j = p then
          { net.getD p defaultNode with outbound_layers :=
              (net.getD p defaultNode).outbound_layers ++ [net.length] }
        else if j < net.length then net.getD j defaultNode
        else if j = net.length then nd
        else defaultNode := by
  show ((net ++ [nd]).set p _).getD j defaultNode = _
  by_cases hjp : j = p
  · subst hjp
    rw [getD_set_self _ _ _ (by simp only [List.length_set, List.length_append]; omega),
      if_pos rfl, List.getD_append _ _ _ _ hp]
  · rw [getD_set_ne _ _ _ (fun he => hjp he.symm), if_neg hjp]
    rcases Nat.lt_trichotomy j net.length with h | h | h
    · rw [if_pos h, List.getD_append _ _ _ _ h]
    · subst h
      rw [if_neg (by omega), if_pos rfl, getD_append_at]
    · rw [if_neg (by omega), if_neg (by omega),
        List.getD_eq_default _ _
          (by simp only [List.length_append, List.length_cons, List.length_nil]; omega)]

/-- Indexing after appending a predecessor-free node. -/
lemma getD_appendNode_none (net : Net α) (nd : Node α) (j : Nat) :
    (appendNode net none nd).getD j defaultNode
      = if j < net.length then net.getD j defaultNode
        else if j = net.length then nd
        else defaultNode := by
  show (net ++ [nd]).getD j defaultNode = _
  rcases Nat.lt_trichotomy j net.length with h | h | h
  · rw [if_pos h, List.getD_append _ _ _ _ h]
  · subst h
    rw [if_neg (by omega), if_pos rfl, getD_append_at]
  · rw [if_neg (by omega), if_neg (by omega),
      List.getD_eq_default _ _
        (by simp only [List.length_append, List.length_cons, List.length_nil]; omega)]

lemma length_appendNode (net : Net α) (p : Option Nat) (nd : Node α) :
    (appendNode net p nd).length = net.length + 1 := by
  rcases p with _ | q <;>
    simp [appendNode, setAt, List.length_set, List.length_append]

/-- Appending a fresh predecessor-free node preserves the wiring
invariants. -/
lemma appendNode_none_inv (net : Net α) (nd : Node α)
    (hout : nd.outbound_layers = []) (hin : nd.input_layer = none)
    (h1 : edgesBelow net) (h2 : predBelow net) (h3 : symWiring net) :
    edgesBelow (appendNode net none nd) ∧ predBelow (appendNode net none nd)
      ∧ symWiring (appendNode net none nd) := by
  have hget := getD_appendNode_none net nd
  have hlen := length_appendNode net none nd
  have hob : ∀ i, outboundOf (appendNode net none nd) i
      = if i < net.length then outboundOf net i else [] := by
    intro i
    unfold outboundOf
    rw [hget i]
    rcases Nat.lt_trichotomy i net.length with h | h | h
    · rw [if_pos h, if_pos h]
    · subst h
      rw [if_neg (by omega), if_pos rfl, if_neg (by omega), hout]
    · rw [if_neg (by omega), if_neg (by omega), if_neg (by omega)]
      rfl
  refine ⟨?_, ?_, ?_⟩
  · intro i j hj
    rw [hob i] at hj
    by_cases hi : i < net.length
    · rw [if_pos hi] at hj
      have := h1 i j hj
      omega
    · rw [if_neg hi] at hj
      simp at hj
  · intro j p hp
    rw [hget j] at hp
    by_cases hjl : j < net.length
    · rw [if_pos hjl] at hp
      exact h2 j p hp
    · rw [if_neg hjl] at hp
      by_cases hje : j = net.length
      · rw [if_pos hje, hin] at hp
        cases hp
      · rw [if_neg hje] at hp
        cases hp
  · intro i j
    rw [hob i, hget j]
    by_cases hjl : j < net.length
    · rw [if_pos hjl]
      by_cases hi : i < net.length
      · rw [if_pos hi]
        exact h3 i j
      · rw [if_neg hi]
        constructor
        · intro hj
          simp at hj
        · intro hj
          have := h2 j i hj
          omega
    · by_cases hje : j = net.length
      · rw [if_neg hjl, if_pos hje, hin]
        constructor
        · intro hj
          by_cases hi : i < net.length
          · rw [if_pos hi] at hj
            have := h1 i j hj
            omega
          · rw [if_neg hi] at hj
            simp at hj
        · intro hj
          cases hj
      · rw [if_neg hjl, if_neg hje]
        constructor
        · intro hj
          by_cases hi : i < net.length
          · rw [if_pos hi] at hj
            have := h1 i j hj
            omega
          · rw [if_neg hi] at hj
            simp at hj
        · intro hj
          cases hj

/-- Appending a fresh node wired to predecessor p preserves the wiring
invariants. -/
lemma appendNode_some_inv (net : Net α) (p : Nat) (nd : Node α)
    (hout : nd.outbound_layers = []) (hin : nd.input_layer = some p)
    (hp : p < net.length)
    (h1 : edgesBelow net) (h2 : predBelow net) (h3 : symWiring net) :
    edgesBelow (appendNode net (some p) nd) ∧ predBelow (appendNode net (some p) nd)
      ∧ symWiring (appendNode net (some p) nd) := by
  have hget := getD_appendNode_some net p nd hp
  have hob : ∀ i, outboundOf (appendNode net (some p) nd) i
      = if i = p then outboundOf net p ++ [net.length]
        else if i < net.length then outboundOf net i else [] := by
    intro i
    unfold outboundOf
    rw [hget i]
    by_cases hip : i = p
    · subst hip
      rw [if_pos rfl, if_pos rfl]
    · rw [if_neg hip, if_neg hip]
      rcases Nat.lt_trichotomy i net.length with h | h | h
      · rw [if_pos h, if_pos h]
      · subst h
        rw [if_neg (by omega), if_pos rfl, if_neg (by omega), hout]
      · rw [if_neg (by omega), if_neg (by omega), if_neg (by omega)]
        rfl
  have hinp : ∀ j, ((appendNode net (some p) nd).getD j defaultNode).input_layer
      = if j < net.length then (net.getD j defaultNode).input_layer
        else if j = net.length then some p else none := by
    intro j
    rw [hget j]
    by_cases hjp : j = p
    · subst hjp
      rw [if_pos rfl, if_pos hp]
    · rw [if_neg hjp]
      rcases Nat.lt_trichotomy j net.length with h | h | h
      · rw [if_pos h, if_pos h]
      · subst h
        rw [if_neg (by omega), if_pos rfl, if_neg (by omega), if_pos rfl, hin]
      · rw [if_neg (by omega), if_neg (by omega), if_neg (by omega), if_neg (by omega)]
        rfl
  refine ⟨?_, ?_, ?_⟩
  · intro i j hj
    rw [length_appendNode]
    rw [hob i] at hj
    by_cases hip : i = p
    · rw [if_pos hip] at hj
      rcases List.mem_append.1 hj with hj2 | hj2
      · have := h1 p j hj2
        omega
      · simp at hj2
        omega
    · rw [if_neg hip] at hj
      by_cases hi : i < net.length
      · rw [if_pos hi] at hj
        have := h1 i j hj
        omega
      · rw [if_neg hi] at hj
        simp at hj
  · intro j q hq
    rw [hinp j] at hq
    by_cases hjl : j < net.length
    · rw [if_pos hjl] at hq
      exact h2 j q hq
    · by_cases hje : j = net.length
      · rw [if_neg hjl, if_pos hje] at hq
        cases hq
        omega
      · rw [if_neg hjl, if_neg hje] at hq
        cases hq
  · intro i j
    rw [hob i, hinp j]
    by_cases hip : i = p
    · rw [if_pos hip]
      by_cases hjl : j < net.length
      · rw [if_pos hjl, List.mem_append]
        constructor
        · intro hj
          rcases hj with hj | hj
          · rw [hip]
            exact (h3 p j).1 hj
          · simp at hj
            omega
        · intro hj
          rw [hip] at hj
          exact Or.inl ((h3 p j).2 hj)
      · by_cases hje : j = net.length
        · rw [if_neg hjl, if_pos hje, hje, hip, List.mem_append]
          simp
        · rw [if_neg hjl, if_neg hje, List.mem_append]
          constructor
          · intro hj
            rcases hj with hj | hj
            · have := h1 p j hj
              omega
            · simp at hj
              omega
          · intro hj
            cases hj
    · rw [if_neg hip]
      by_cases hi : i < net.length
      · rw [if_pos hi]
        by_cases hjl : j < net.length
        · rw [if_pos hjl]
          exact h3 i j
        · by_cases hje : j = net.length
          · rw [if_neg hjl, if_pos hje]
            constructor
            · intro hj
              have := h1 i j hj
              omega
            · intro hj
              cases hj
              exact absurd rfl hip
          · rw [if_neg hjl, if_neg hje]
            constructor
            · intro hj
              have := h1 i j hj
              omega
            · intro hj
              cases hj
      · rw [if_neg hi]
        by_cases hjl : j < net.length
        · rw [if_pos hjl]
          constructor
          · intro hj
            simp at hj
          · intro hj
            have := h2 j i hj
            omega
        · by_cases hje : j = net.length
          · rw [if_neg hjl, if_pos hje]
            constructor
            · intro hj
              simp at hj
            · intro hj
              cases hj
              exact absurd rfl hip
          · rw [if_neg hjl, if_neg hje]
            constructor
            · intro hj
              simp at hj
            · intro hj
              cases hj

/-- The predecessor index a constructor call refers to, when any. -/
def specPred : LSpec α → Option Nat
  | LSpec.inputL _ _ => none
  | LSpec.hiddenL p _ _ => some p
  | LSpec.softmaxL p => some p
  | LSpec.crossL p => some p

/-- Every constructor-built graph has symmetric wiring, downward
predecessor pointers, and upward in-range successor edges, provided every
constructor call refers to an already-built predecessor. -/
lemma buildNet_inv :
    ∀ (specs : List (LSpec α)) (net : Net α),
      edgesBelow net → predBelow net → symWiring net →
      (∀ k, k < specs.length →
        ∀ p, specPred (specs.getD k (LSpec.inputL [] [])) = some p → p < net.length + k) →
      edgesBelow (specs.foldl buildStep net) ∧ predBelow (specs.foldl buildStep net)
        ∧ symWiring (specs.foldl buildStep net)
  | [], net, h1, h2, h3, _ => ⟨h1, h2, h3⟩
  | s :: rest, net, h1, h2, h3, hs => by
      have hstep : edgesBelow (buildStep net s) ∧ predBelow (buildStep net s)
          ∧ symWiring (buildStep net s) := by
        have hq := hs 0 (by simp)
        rcases s with ⟨W, b⟩ | ⟨p, W, b⟩ | p | p
        · exact appendNode_none_inv net _ rfl rfl h1 h2 h3
        · exact appendNode_some_inv net p _ rfl rfl
            (by have := hq p; simp [specPred] at this; omega) h1 h2 h3
        · exact appendNode_some_inv net p _ rfl rfl
            (by have := hq p; simp [specPred] at this; omega) h1 h2 h3
        · exact appendNode_some_inv net p _ rfl rfl
            (by have := hq p; simp [specPred] at this; omega) h1 h2 h3
      have hlen2 : (buildStep net s).length = net.length + 1 := by
        rcases s with ⟨W, b⟩ | ⟨p, W, b⟩ | p | p
        · exact length_appendNode net none _
        · exact length_appendNode net (some p) _
        · exact length_appendNode net (some p) _
        · exact length_appendNode net (some p) _
      exact buildNet_inv rest (buildStep net s) hstep.1 hstep.2.1 hstep.2.2
        (fun k hk p hp => by
          have := hs (k + 1) (by simpa using Nat.succ_lt_succ hk) p (by simpa using hp)
          omega)

/-- Wiring is unchanged by replacing a node whose predecessor pointer and
successor list agree with the old one. -/
lemma wiring_set (net : Net α) (i : Nat) (nd : Node α)
    (h1 : nd.input_layer = (net.getD i defaultNode).input_layer)
    (h2 : nd.outbound_layers = (net.getD i defaultNode).outbound_layers) :
    wiring (net.set i nd) = wiring net := by
  unfold wiring
  rw [List.map_set]
  by_cases hl : i < net.length
  · have heq : (nd.input_layer, nd.outbound_layers)
        = (net.map (fun nd => (nd.input_layer, nd.outbound_layers))).getD i (none, []) := by
      rw [h1, h2, getD_map_of_lt _ _ hl (none, []) defaultNode]
    rw [heq]
    apply List.ext_getElem?
    intro n
    by_cases hni : n = i
    · subst hni
      rw [List.getElem?_set_self (by simpa using hl),
        List.getElem?_eq_getElem (by simpa using hl),
        List.getD_eq_getElem _ _ (by simpa using hl)]
    · rw [List.getElem?_set_ne (fun he => hni he.symm)]
  · rw [List.set_eq_of_length_le (by simpa using Nat.le_of_not_lt hl)]

/-- forward() never rewires a node. -/
lemma wiring_forwardAt (expF logF : α → α) (net : Net α) (i : Nat) :
    wiring (forwardAt expF logF net i) = wiring net := by
  apply wiring_set <;>
    · rcases hk : (net.getD i defaultNode).kind with _ | _ | _ | _
      · rw [nodeForward_input expF logF net i hk]
        rfl
      · rw [nodeForward_hidden expF logF net i hk]
        rfl
      · rw [nodeForward_softmax expF logF net i hk]
        rfl
      · rw [nodeForward_crossEntropy expF logF net i hk]
        rfl

/-- backward() never rewires a node. -/
lemma wiring_backwardAt (net : Net α) (i : Nat) :
    wiring (backwardAt net i) = wiring net := by
  apply wiring_set <;>
    · rcases hk : (net.getD i defaultNode).kind with _ | _ | _ | _ <;>
        simp only [nodeBackward, hk] <;> rfl

/-- The scheduler's data injection never rewires a node. -/
lemma wiring_inject (feed : List (Nat × Mat α)) (ideal : Mat α) (net : Net α) (i : Nat) :
    wiring (inject feed ideal net i) = wiring net := by
  apply wiring_set <;>
    · rcases hk : (net.getD i defaultNode).kind with _ | _ | _ | _
      · simp only [inject, setAt, hk]
        rfl
      · simp only [inject, setAt, hk]
      · simp only [inject, setAt, hk]
      · simp only [inject, setAt, hk]

/-- The Kahn loop never rewires a node. -/
lemma wiring_kahnAux (pick : Finset Nat → Nat) (outb : Nat → List Nat)
    (feed : List (Nat × Mat α)) (ideal : Mat α) :
    ∀ (fuel : Nat) (S : Finset Nat) (g : GAdj) (L : List Nat) (net : Net α)
      (L2 : List Nat) (net2 : Net α),
      kahnAux pick outb feed ideal fuel S g L net = some (L2, net2) →
      wiring net2 = wiring net := by
  intro fuel
  induction fuel with
  | zero =>
      intro S g L net L2 net2 h
      rw [kahnAux] at h
      by_cases hS : S = ∅
      · rw [if_pos hS] at h
        cases h
        rfl
      · rw [if_neg hS] at h
        cases h
  | succ f ih =>
      intro S g L net L2 net2 h
      rw [kahnAux] at h
      by_cases hS : S = ∅
      · rw [if_pos hS] at h
        cases h
        rfl
      · rw [if_neg hS] at h
        have := ih _ _ _ _ _ _ h
        rw [this, wiring_inject]

/-- topological_sort never rewires a node. -/
lemma wiring_topological_sort (pick : Finset Nat → Nat) (fuel : Nat) (net : Net α)
    (feed : List (Nat × Mat α)) (ideal : Mat α) (L : List Nat) (net2 : Net α)
    (h : topological_sort pick fuel net feed ideal = some (L, net2)) :
    wiring net2 = wiring net := by
  unfold topological_sort at h
  simp only at h
  rcases hb : buildG (outboundOf net) fuel (feed.map Prod.fst)
      ⟨fun _ => ∅, fun _ => ∅⟩ with _ | g
  · rw [hb] at h
    cases h
  · rw [hb] at h
    exact wiring_kahnAux pick (outboundOf net) feed ideal _ _ _ _ _ _ _ h

lemma wiring_fold_forward (expF logF : α → α) :
    ∀ (l : List Nat) (net : Net α),
      wiring (l.foldl (fun nt i => forwardAt expF logF nt i) net) = wiring net
  | [], _ => rfl
  | i :: rest, net => by
      rw [List.foldl_cons, wiring_fold_forward expF logF rest _, wiring_forwardAt]

lemma wiring_fold_backward :
    ∀ (l : List Nat) (net : Net α),
      wiring (l.foldl (fun nt i => backwardAt nt i) net) = wiring net
  | [], _ => rfl
  | i :: rest, net => by
      rw [List.foldl_cons, wiring_fold_backward rest _, wiring_backwardAt]

/-- C10: on every constructor-built graph the predecessor/successor
relation is symmetric (a node's predecessor lists it among its
successors), and no engine operation — topological_sort (injection
included), forward, backward, or the train_SGD driver — changes any
node's input_layer or outbound_layers. -/
theorem C10_wiring_symmetric_immutable :
    (∀ (specs : List (LSpec α)),
      (∀ k, k < specs.length →
        ∀ p, specPred (specs.getD k (LSpec.inputL [] [])) = some p → p < k) →
      ∀ i j, j ∈ outboundOf (buildNet specs) i
        ↔ ((buildNet specs).getD j defaultNode).input_layer = some i)
    ∧ (∀ (expF logF : α → α) (net : Net α) (i : Nat),
        wiring (forwardAt expF logF net i) = wiring net)
    ∧ (∀ (net : Net α) (i : Nat), wiring (backwardAt net i) = wiring net)
    ∧ (∀ (pick : Finset Nat → Nat) (fuel : Nat) (net : Net α)
        (feed : List (Nat × Mat α)) (ideal : Mat α) (L : List Nat) (net2 : Net α),
        topological_sort pick fuel net feed ideal = some (L, net2) →
        wiring net2 = wiring net)
    ∧ (∀ (pick : Finset Nat → Nat) (expF logF : α → α) (fuel : Nat) (net : Net α)
        (feed : List (Nat × Mat α)) (ideal : Mat α) (trainables : List (NTensor α))
        (lr : α) (tr : List (NTensor α)) (v : α) (net3 : Net α),
        train_SGD pick expF logF fuel net feed ideal trainables lr = some (tr, v, net3) →
        wiring net3 = wiring net) := by
  refine ⟨?_, wiring_forwardAt, wiring_backwardAt, wiring_topological_sort, ?_⟩
  · intro specs hsp
    have := buildNet_inv specs []
      (by intro i j hj; simp [outboundOf, defaultNode] at hj)
      (by intro j p hp; simp [defaultNode] at hp)
      (by intro i j
          constructor
          · intro hj
            simp [outboundOf, defaultNode] at hj
          · intro hj
            simp [defaultNode] at hj)
      (by intro k hk p hp
          have := hsp k hk p hp
          simpa using this)
    exact this.2.2
  · intro pick expF logF fuel net feed ideal trainables lr tr v net3 h
    unfold train_SGD at h
    rcases hb : topological_sort pick fuel net feed ideal with _ | r
    · rw [hb] at h
      cases h
    · rw [hb] at h
      rcases r with ⟨sorted, net1⟩
      simp only at h
      rcases hs : sgdUpdate lr trainables
          (gradientHarvest (sorted.reverse.foldl (fun nt i => backwardAt nt i)
            (sorted.foldl (fun nt i => forwardAt expF logF nt i) net1))
            (sorted.take (sorted.length - 2))) with _ | tr2
      · rw [hs] at h
        cases h
      · rw [hs] at h
        cases h
        rw [wiring_fold_backward, wiring_fold_forward]
        exact wiring_topological_sort pick fuel net feed ideal sorted net1 hb

/-! Scheduler correctness, part 1: the adjacency-building phase.  The
queue evolution of buildG never depends on the adjacency state, so the
loop factors into the trace of popped nodes (bfsTrace) and a fold of edge
insertions over that trace; the trace is exactly the set of nodes
reachable from the entry list, and on rank-ordered (acyclic, in-range)
graphs the loop terminates within an explicit fuel bound. -/

/-- Reachability along successor edges from the entry list. -/
inductive Reach (outb : Nat → List Nat) (entries : List Nat) : Nat → Prop where
  | entry {n : Nat} : n ∈ entries → Reach outb entries n
  | step {p m : Nat} : Reach outb entries p → m ∈ outb p → Reach outb entries m

lemma bfsTrace_mono (outb : Nat → List Nat) :
    ∀ (f : Nat) (q : List Nat) (t : List Nat), bfsTrace outb f q = some t →
      ∀ f2, f ≤ f2 → bfsTrace outb f2 q = some t := by
  intro f
  induction f with
  | zero =>
      intro q t h f2 _
      cases q with
      | nil =>
          cases h
          cases f2 <;> rfl
      | cons n rest => simp [bfsTrace] at h
  | succ f ih =>
      intro q t h f2 hf2
      cases q with
      | nil =>
          cases h
          cases f2 <;> rfl
      | cons n rest =>
          obtain ⟨f3, rfl⟩ : ∃ f3, f2 = f3 + 1 := ⟨f2 - 1, by omega⟩
          simp only [bfsTrace] at h ⊢
          rcases ht : bfsTrace outb f (rest ++ outb n) with _ | t1
          · rw [ht] at h
            cases h
          · rw [ht] at h
            rw [ih _ _ ht f3 (by omega)]
            exact h

/-- The adjacency fold of a popped-node trace. -/
def applyTrace (outb : Nat → List Nat) (g : GAdj) (t : List Nat) : GAdj :=
  t.foldl (fun g2 n => addEdges outb n g2) g

lemma buildG_eq_trace (outb : Nat → List Nat) :
    ∀ (f : Nat) (q : List Nat) (g : GAdj),
      buildG outb f q g = (bfsTrace outb f q).map (applyTrace outb g) := by
  intro f
  induction f with
  | zero =>
      intro q g
      cases q <;> rfl
  | succ f ih =>
      intro q g
      cases q with
      | nil => rfl
      | cons n rest =>
          simp only [buildG, bfsTrace, ih]
          rcases bfsTrace outb f (rest ++ outb n) with _ | t1
          · rfl
          · simp only [Option.map_some']
            rfl

lemma gin_foldl_addEdge (n : Nat) :
    ∀ (ms : List Nat) (g : GAdj) (x : Nat),
      (ms.foldl (addEdge n) g).gin x
        = if x ∈ ms then insert n (g.gin x) else g.gin x
  | [], g, x => by simp
  | m :: ms, g, x => by
      rw [List.foldl_cons, gin_foldl_addEdge n ms _ x]
      by_cases hxm : x = m
      · subst hxm
        have he : (addEdge n g x).gin x = insert n (g.gin x) := by
          simp [addEdge]
        by_cases hxs : x ∈ ms
        · rw [if_pos hxs, if_pos (show x ∈ x :: ms from by simp), he, Finset.insert_idem]
        · rw [if_neg hxs, if_pos (show x ∈ x :: ms from by simp), he]
      · have he : (addEdge n g m).gin x = g.gin x := by
          simp [addEdge, Function.update_noteq hxm]
        by_cases hxs : x ∈ ms
        · rw [if_pos hxs, if_pos (show x ∈ m :: ms from by simp [hxs]), he]
        · rw [if_neg hxs, if_neg (show x ∉ m :: ms from by simp [hxm, hxs]), he]

lemma gin_addEdges (outb : Nat → List Nat) (n : Nat) (g : GAdj) (x : Nat) :
    (addEdges outb n g).gin x
      = if x ∈ outb n then insert n (g.gin x) else g.gin x :=
  gin_foldl_addEdge n (outb n) g x

lemma gin_applyTrace (outb : Nat → List Nat) :
    ∀ (t : List Nat) (g : GAdj) (x p : Nat),
      p ∈ (applyTrace outb g t).gin x ↔ (p ∈ g.gin x ∨ (p ∈ t ∧ x ∈ outb p))
  | [], g, x, p => by simp [applyTrace]
  | n :: t, g, x, p => by
      have h1 : applyTrace outb g (n :: t) = applyTrace outb (addEdges outb n g) t := by
        simp [applyTrace]
      rw [h1, gin_applyTrace outb t _ x p, gin_addEdges]
      by_cases hx : x ∈ outb n
      · rw [if_pos hx, Finset.mem_insert]
        constructor
        · intro hc
          rcases hc with (rfl | hg) | ⟨hpt, hxp⟩
          · exact Or.inr ⟨by simp, hx⟩
          · exact Or.inl hg
          · exact Or.inr ⟨by simp [hpt], hxp⟩
        · intro hc
          rcases hc with hg | ⟨hpt, hxp⟩
          · exact Or.inl (Or.inr hg)
          · rcases List.mem_cons.1 hpt with rfl | hpt2
            · exact Or.inl (Or.inl rfl)
            · exact Or.inr ⟨hpt2, hxp⟩
      · rw [if_neg hx]
        constructor
        · intro hc
          rcases hc with hg | ⟨hpt, hxp⟩
          · exact Or.inl hg
          · exact Or.inr ⟨by simp [hpt], hxp⟩
        · intro hc
          rcases hc with hg | ⟨hpt, hxp⟩
          · exact Or.inl hg
          · rcases List.mem_cons.1 hpt with rfl | hpt2
            · exact absurd hxp hx
            · exact Or.inr ⟨hpt2, hxp⟩

lemma bfsTrace_sub (outb : Nat → List Nat) :
    ∀ (f : Nat) (q : List Nat) (t : List Nat), bfsTrace outb f q = some t →
      (∀ x ∈ q, x ∈ t) ∧ (∀ n ∈ t, ∀ m ∈ outb n, m ∈ t) := by
  intro f
  induction f with
  | zero =>
      intro q t h
      cases q with
      | nil =>
          cases h
          exact ⟨by simp, by simp⟩
      | cons n rest => simp [bfsTrace] at h
  | succ f ih =>
      intro q t h
      cases q with
      | nil =>
          cases h
          exact ⟨by simp, by simp⟩
      | cons n rest =>
          simp only [bfsTrace] at h
          rcases ht : bfsTrace outb f (rest ++ outb n) with _ | t1
          · rw [ht] at h
            cases h
          · rw [ht] at h
            cases h
            obtain ⟨hq, hcl⟩ := ih _ _ ht
            constructor
            · intro x hx
              rcases List.mem_cons.1 hx with rfl | hx2
              · simp
              · exact List.mem_cons_of_mem _ (hq x (by simp [hx2]))
            · intro x hx m hm
              rcases List.mem_cons.1 hx with rfl | hx2
              · exact List.mem_cons_of_mem _ (hq m (by simp [hm]))
              · exact List.mem_cons_of_mem _ (hcl x hx2 m hm)

lemma bfsTrace_reach (outb : Nat → List Nat) (entries : List Nat) :
    ∀ (f : Nat) (q : List Nat) (t : List Nat), bfsTrace outb f q = some t →
      (∀ x ∈ q, Reach outb entries x) → ∀ x ∈ t, Reach outb entries x := by
  intro f
  induction f with
  | zero =>
      intro q t h hq
      cases q with
      | nil =>
          cases h
          simp
      | cons n rest => simp [bfsTrace] at h
  | succ f ih =>
      intro q t h hq
      cases q with
      | nil =>
          cases h
          simp
      | cons n rest =>
          simp only [bfsTrace] at h
          rcases ht : bfsTrace outb f (rest ++ outb n) with _ | t1
          · rw [ht] at h
            cases h
          · rw [ht] at h
            cases h
            have hn : Reach outb entries n := hq n (by simp)
            intro x hx
            rcases List.mem_cons.1 hx with rfl | hx2
            · exact hn
            · refine ih _ _ ht ?_ x hx2
              intro y hy
              rcases List.mem_append.1 hy with hy2 | hy2
              · exact hq y (by simp [hy2])
              · exact Reach.step hn hy2

lemma reach_mem_trace (outb : Nat → List Nat) (entries : List Nat) (f : Nat)
    (t : List Nat) (h : bfsTrace outb f entries = some t) :
    ∀ x, Reach outb entries x → x ∈ t := by
  intro x hx
  induction hx with
  | entry h2 => exact (bfsTrace_sub outb _ _ _ h).1 _ h2
  | step _ hm ih => exact (bfsTrace_sub outb _ _ _ h).2 _ ih _ hm

/-- Path-count bound with explicit depth, used as the termination measure
of the adjacency-building loop. -/
def cnt (outb : Nat → List Nat) : Nat → Nat → Nat
  | 0, _ => 1
  | k + 1, n => 1 + ((outb n).map (cnt outb k)).sum

lemma cnt_pos (outb : Nat → List Nat) (k n : Nat) : 1 ≤ cnt outb k n := by
  cases k <;> simp [cnt]

lemma cnt_stab (outb : Nat → List Nat) (N B : Nat) (rank : Nat → Nat)
    (hsub : ∀ i j, j ∈ outb i → j < N)
    (hrank : ∀ i j, j ∈ outb i → rank i < rank j)
    (hB : ∀ i, i < N → rank i < B) :
    ∀ (d n k : Nat), n < N → B - rank n ≤ d → B - rank n ≤ k →
      cnt outb (k + 1) n = cnt outb k n := by
  intro d
  induction d using Nat.strong_induction_on with
  | _ d ih =>
      intro n k hn hd hk
      have hrn : rank n < B := hB n hn
      obtain ⟨k0, rfl⟩ : ∃ k0, k = k0 + 1 := ⟨k - 1, by omega⟩
      simp only [cnt]
      refine congrArg (1 + ·) (congrArg List.sum (List.map_congr_left (fun m hm => ?_)))
      have hmN : m < N := hsub n m hm
      have hrm : rank n < rank m := hrank n m hm
      have hrmB : rank m < B := hB m hmN
      exact ih (B - rank m) (by omega) m k0 hmN (le_refl _) (by omega)

lemma cnt_outb_stab (outb : Nat → List Nat) (N B : Nat) (rank : Nat → Nat)
    (hsub : ∀ i j, j ∈ outb i → j < N)
    (hrank : ∀ i j, j ∈ outb i → rank i < rank j)
    (hB : ∀ i, i < N → rank i < B) (hB1 : 1 ≤ B) (n : Nat) :
    ((outb n).map (cnt outb B)).sum = ((outb n).map (cnt outb (B - 1))).sum := by
  refine congrArg List.sum (List.map_congr_left (fun m hm => ?_))
  have hmN : m < N := hsub n m hm
  have hrm : rank n < rank m := hrank n m hm
  obtain ⟨B0, rfl⟩ : ∃ B0, B = B0 + 1 := ⟨B - 1, by omega⟩
  have := cnt_stab outb N (B0 + 1) rank hsub hrank hB (B0 + 1 - rank m) m B0
    hmN (le_refl _) (by omega)
  simpa using this

lemma bfs_terminates (outb : Nat → List Nat) (N B : Nat) (rank : Nat → Nat)
    (hsub : ∀ i j, j ∈ outb i → j < N)
    (hrank : ∀ i j, j ∈ outb i → rank i < rank j)
    (hB : ∀ i, i < N → rank i < B) (hB1 : 1 ≤ B) :
    ∀ (f : Nat) (q : List Nat), (q.map (cnt outb B)).sum ≤ f →
      ∃ t, bfsTrace outb f q = some t := by
  intro f
  induction f with
  | zero =>
      intro q h
      cases q with
      | nil => exact ⟨[], rfl⟩
      | cons n rest =>
          exfalso
          have := cnt_pos outb B n
          simp only [List.map_cons, List.sum_cons] at h
          omega
  | succ f ih =>
      intro q h
      cases q with
      | nil => exact ⟨[], rfl⟩
      | cons n rest =>
          have hmeas : ((rest ++ outb n).map (cnt outb B)).sum ≤ f := by
            have hs : ((rest ++ outb n).map (cnt outb B)).sum
                = (rest.map (cnt outb B)).sum + ((outb n).map (cnt outb B)).sum := by
              rw [List.map_append, List.sum_append]
            have hn : cnt outb B n = 1 + ((outb n).map (cnt outb (B - 1))).sum := by
              obtain ⟨B0, rfl⟩ : ∃ B0, B = B0 + 1 := ⟨B - 1, by omega⟩
              simp [cnt]
            have hstab := cnt_outb_stab outb N B rank hsub hrank hB hB1 n
            simp only [List.map_cons, List.sum_cons] at h
            omega
          obtain ⟨t, ht⟩ := ih (rest ++ outb n) hmeas
          exact ⟨n :: t, by simp only [bfsTrace, ht, Option.map_some']⟩

/-! Scheduler correctness, part 2: the Kahn loop.  The invariant carries
the processed prefix L, the remaining in-sets, and the ready set through
the loop; on acyclic in-range graphs whose entries have no incoming edges
the loop consumes exactly the reachable nodes, each once, in an order
where every reachable predecessor precedes its successors. -/

/-- The reachable predecessors of m, drawn from the reachable set R. -/
def predsIn (outb : Nat → List Nat) (R : Finset Nat) (m : Nat) : Finset Nat :=
  R.filter (fun p => m ∈ outb p)

/-- The Kahn-loop invariant. -/
structure KInv (outb : Nat → List Nat) (R : Finset Nat) (S : Finset Nat)
    (gin : Nat → Finset Nat) (L : List Nat) : Prop where
  nodup : L.Nodup
  subR : ∀ x ∈ L, x ∈ R
  ginEq : ∀ m, gin m = predsIn outb R m \ L.toFinset
  SEq : S = R.filter (fun n => n ∉ L ∧ predsIn outb R n ⊆ L.toFinset)
  order : ∀ p m, p ∈ R → m ∈ outb p → ∀ k, k < L.length → L.getD k 0 = m →
    ∃ k2, k2 < k ∧ L.getD k2 0 = p

lemma getD_mem {l : List Nat} {k : Nat} (h : k < l.length) : l.getD k 0 ∈ l := by
  rw [List.getD_eq_getElem _ _ h]
  exact List.getElem_mem _

lemma mem_getD_of_mem {x : Nat} {l : List Nat} (h : x ∈ l) :
    ∃ k, k < l.length ∧ l.getD k 0 = x := by
  obtain ⟨k, hk, he⟩ := List.getElem_of_mem h
  exact ⟨k, hk, by rw [List.getD_eq_getElem _ _ hk]; exact he⟩

/-- Closed form of the edge-processing fold in the Kahn loop body. -/
lemma kahnEdge_fold (n : Nat) :
    ∀ (ms : List Nat) (S : Finset Nat) (g : GAdj),
      (∀ x, (ms.foldl (kahnEdge n) (S, g)).2.gin x
          = if x ∈ ms then (g.gin x).erase n else g.gin x)
      ∧ (ms.foldl (kahnEdge n) (S, g)).1
          = S ∪ (ms.toFinset.filter (fun m => (g.gin m).erase n = ∅))
  | [], S, g => by
      constructor
      · intro x
        simp
      · simp
  | m :: ms, S, g => by
      rw [List.foldl_cons]
      have hg1 : ∀ x, (kahnEdge n (S, g) m).2.gin x
          = if x = m then (g.gin m).erase n else g.gin x := by
        intro x
        by_cases hxm : x = m
        · subst hxm
          simp [kahnEdge]
        · rw [if_neg hxm]
          simp [kahnEdge, Function.update_noteq hxm]
      have hS1 : (kahnEdge n (S, g) m).1
          = if (g.gin m).erase n = ∅ then insert m S else S := by
        simp [kahnEdge]
      obtain ⟨ihg, ihS⟩ :=
        kahnEdge_fold n ms (kahnEdge n (S, g) m).1 (kahnEdge n (S, g) m).2
      constructor
      · intro x
        rw [ihg x, hg1 x]
        by_cases hxm : x = m
        · subst hxm
          by_cases hxs : x ∈ ms
          · rw [if_pos hxs, if_pos rfl, if_pos (show x ∈ x :: ms from by simp),
              Finset.erase_idem]
          · rw [if_neg hxs, if_pos rfl, if_pos (show x ∈ x :: ms from by simp)]
        · by_cases hxs : x ∈ ms
          · rw [if_pos hxs, if_neg hxm, if_pos (show x ∈ m :: ms from by simp [hxs])]
          · rw [if_neg hxs, if_neg hxm, if_neg (show x ∉ m :: ms from by simp [hxm, hxs])]
      · rw [ihS, hS1]
        have hfc : ms.toFinset.filter
            (fun m2 => ((kahnEdge n (S, g) m).2.gin m2).erase n = ∅)
              = ms.toFinset.filter (fun m2 => (g.gin m2).erase n = ∅) := by
          apply Finset.filter_congr
          intro m2 _
          rw [hg1 m2]
          by_cases hm2m : m2 = m
          · subst hm2m
            rw [if_pos rfl, Finset.erase_idem]
          · rw [if_neg hm2m]
        rw [hfc, List.toFinset_cons, Finset.filter_insert]
        by_cases hc : (g.gin m).erase n = ∅
        · rw [if_pos hc, if_pos hc, Finset.insert_union, Finset.union_insert]
        · rw [if_neg hc, if_neg hc]

/-- One Kahn-loop iteration preserves the invariant. -/
lemma KInv_step (outb : Nat → List Nat) (R : Finset Nat) (rank : Nat → Nat)
    (hrho : ∀ p m, m ∈ outb p → rank p < rank m)
    (hclosed : ∀ p, p ∈ R → ∀ m, m ∈ outb p → m ∈ R)
    (S : Finset Nat) (g : GAdj) (L : List Nat) (n : Nat)
    (hn : n ∈ S) (inv : KInv outb R S g.gin L) :
    KInv outb R ((outb n).foldl (kahnEdge n) (S.erase n, g)).1
      ((outb n).foldl (kahnEdge n) (S.erase n, g)).2.gin (L ++ [n]) := by
  obtain ⟨hgin, hS⟩ := kahnEdge_fold n (outb n) (S.erase n) g
  have hnprops := Finset.mem_filter.1 (inv.SEq ▸ hn)
  have hnR : n ∈ R := hnprops.1
  have hnL : n ∉ L := hnprops.2.1
  have hnpreds : predsIn outb R n ⊆ L.toFinset := hnprops.2.2
  have hLtf : (L ++ [n]).toFinset = insert n L.toFinset := by
    ext x
    simp [or_comm]
  constructor
  · simp [List.nodup_append, inv.nodup, hnL]
  · intro x hx
    rcases List.mem_append.1 hx with h | h
    · exact inv.subR x h
    · simp at h
      subst h
      exact hnR
  · intro m
    rw [hgin m, hLtf]
    by_cases hm : m ∈ outb n
    · rw [if_pos hm, inv.ginEq m]
      ext x
      simp only [Finset.mem_erase, Finset.mem_sdiff, Finset.mem_insert, List.mem_toFinset]
      tauto
    · rw [if_neg hm, inv.ginEq m]
      have hnp : n ∉ predsIn outb R m := by
        simp [predsIn, hm]
      ext x
      simp only [Finset.mem_sdiff, Finset.mem_insert, List.mem_toFinset]
      constructor
      · rintro ⟨h1, h2⟩
        refine ⟨h1, fun hc => ?_⟩
        rcases hc with h | h
        · subst h
          exact hnp h1
        · exact h2 h
      · rintro ⟨h1, h2⟩
        exact ⟨h1, fun h => h2 (Or.inr h)⟩
  · rw [hS]
    ext x
    simp only [Finset.mem_union, Finset.mem_erase, Finset.mem_filter, List.mem_toFinset]
    constructor
    · intro hc
      rcases hc with ⟨hxn, hxS⟩ | ⟨hxout, hxe⟩
      · have hxf := Finset.mem_filter.1 (inv.SEq ▸ hxS)
        refine ⟨hxf.1, ?_, ?_⟩
        · intro hmem
          rcases List.mem_append.1 hmem with h | h
          · exact hxf.2.1 h
          · simp at h
            exact hxn h
        · rw [hLtf]
          exact hxf.2.2.trans (Finset.subset_insert n L.toFinset)
      · rw [inv.ginEq x] at hxe
        have hxR : x ∈ R := hclosed n hnR x hxout
        have hxn : x ≠ n := by
          intro he
          subst he
          exact absurd (hrho x x hxout) (lt_irrefl _)
        have hxL : x ∉ L := by
          intro hxL
          obtain ⟨k, hk, hkx⟩ := mem_getD_of_mem hxL
          obtain ⟨k2, hk2, hk2n⟩ := inv.order n x hnR hxout k hk hkx
          have hmem := getD_mem (lt_trans hk2 hk)
          rw [hk2n] at hmem
          exact hnL hmem
        refine ⟨hxR, ?_, ?_⟩
        · intro hmem
          rcases List.mem_append.1 hmem with h | h
          · exact hxL h
          · simp at h
            exact hxn h
        · rw [hLtf]
          intro p hp
          rw [Finset.mem_insert]
          by_cases hpn : p = n
          · exact Or.inl hpn
          · by_cases hpL : p ∈ L.toFinset
            · exact Or.inr hpL
            · exfalso
              have hmem : p ∈ (predsIn outb R x \ L.toFinset).erase n :=
                Finset.mem_erase.2 ⟨hpn, Finset.mem_sdiff.2 ⟨hp, hpL⟩⟩
              rw [hxe] at hmem
              exact absurd hmem (Finset.not_mem_empty p)
    · rintro ⟨hxR, hxnotL1, hxsub⟩
      have hxn : x ≠ n := by
        intro he
        subst he
        exact hxnotL1 (by simp)
      have hxL : x ∉ L := fun h => hxnotL1 (List.mem_append.2 (Or.inl h))
      rw [hLtf] at hxsub
      by_cases hpx : predsIn outb R x ⊆ L.toFinset
      · exact Or.inl ⟨hxn, inv.SEq ▸ Finset.mem_filter.2 ⟨hxR, hxL, hpx⟩⟩
      · right
        have hex : ∃ p ∈ predsIn outb R x, p ∉ L.toFinset := by
          by_contra hno
          push_neg at hno
          exact hpx (fun p hp => hno p hp)
        obtain ⟨p, hp, hpL⟩ := hex
        have hpn : p = n := by
          have hmem := hxsub hp
          rw [Finset.mem_insert] at hmem
          rcases hmem with h | h
          · exact h
          · exact absurd h hpL
        subst hpn
        have hxout : x ∈ outb p := (Finset.mem_filter.1 hp).2
        refine ⟨hxout, ?_⟩
        rw [inv.ginEq x, Finset.eq_empty_iff_forall_not_mem]
        intro y hy
        rw [Finset.mem_erase, Finset.mem_sdiff] at hy
        obtain ⟨hyn, hyp, hyL⟩ := hy
        have hmem := hxsub hyp
        rw [Finset.mem_insert] at hmem
        rcases hmem with h | h
        · exact hyn h
        · exact hyL h
  · intro p m hpR hm k hk hkm
    rcases Nat.lt_trichotomy k L.length with hkL | hkL | hkL
    · rw [List.getD_append _ _ _ _ hkL] at hkm
      obtain ⟨k2, hk2, hk2p⟩ := inv.order p m hpR hm k hkL hkm
      exact ⟨k2, hk2, by
        rw [List.getD_append _ _ _ _ (lt_trans hk2 hkL)]
        exact hk2p⟩
    · have hn2 : (L ++ [n]).getD k 0 = n := by
        rw [hkL, getD_append_at]
      rw [hn2] at hkm
      subst hkm
      have hpmem : p ∈ predsIn outb R n := Finset.mem_filter.2 ⟨hpR, hm⟩
      have hpl : p ∈ L.toFinset := hnpreds hpmem
      rw [List.mem_toFinset] at hpl
      obtain ⟨k2, hk2len, hk2p⟩ := mem_getD_of_mem hpl
      refine ⟨k2, by omega, ?_⟩
      rw [List.getD_append _ _ _ _ hk2len]
      exact hk2p
    · rw [List.length_append] at hk
      simp at hk
      omega

/-- The Kahn loop, run with enough fuel from an invariant state, returns
normally with a Nodup, R-supported, edge-ordered list that exhausts the
ready condition. -/
lemma kahn_run {α : Type} [Field α] (pick : Finset Nat → Nat) (outb : Nat → List Nat)
    (feed : List (Nat × Mat α)) (ideal : Mat α)
    (R : Finset Nat) (rank : Nat → Nat)
    (hpick : ∀ s : Finset Nat, s ≠ ∅ → pick s ∈ s)
    (hrho : ∀ p m, m ∈ outb p → rank p < rank m)
    (hclosed : ∀ p, p ∈ R → ∀ m, m ∈ outb p → m ∈ R) :
    ∀ (f : Nat) (S : Finset Nat) (g : GAdj) (L : List Nat) (net : Net α),
      KInv outb R S g.gin L → R.card ≤ f + L.length →
      ∃ (Lf : List Nat) (netf : Net α),
        kahnAux pick outb feed ideal f S g L net = some (Lf, netf)
        ∧ Lf.Nodup ∧ (∀ x ∈ Lf, x ∈ R)
        ∧ (∀ p m, p ∈ R → m ∈ outb p → ∀ k, k < Lf.length → Lf.getD k 0 = m →
            ∃ k2, k2 < k ∧ Lf.getD k2 0 = p)
        ∧ R.filter (fun x => x ∉ Lf ∧ predsIn outb R x ⊆ Lf.toFinset) = ∅ := by
  intro f
  induction f with
  | zero =>
      intro S g L net inv hcard
      by_cases hS : S = ∅
      · refine ⟨L, net, ?_, inv.nodup, inv.subR, inv.order, ?_⟩
        · rw [kahnAux, if_pos hS]
        · rw [← inv.SEq, hS]
      · exfalso
        obtain ⟨x, hx⟩ := Finset.nonempty_iff_ne_empty.2 hS
        have hxf := Finset.mem_filter.1 (inv.SEq ▸ hx)
        have hsub2 : L.toFinset ⊆ R := fun y hy => inv.subR y (List.mem_toFinset.1 hy)
        have hlen : L.toFinset.card = L.length := List.toFinset_card_of_nodup inv.nodup
        have hlt : L.toFinset.card < R.card := Finset.card_lt_card
          ((Finset.ssubset_iff_of_subset hsub2).2
            ⟨x, hxf.1, by simp [hxf.2.1]⟩)
        omega
  | succ f ih =>
      intro S g L net inv hcard
      by_cases hS : S = ∅
      · refine ⟨L, net, ?_, inv.nodup, inv.subR, inv.order, ?_⟩
        · rw [kahnAux, if_pos hS]
        · rw [← inv.SEq, hS]
      · have hn : pick S ∈ S := hpick S hS
        have inv2 := KInv_step outb R rank hrho hclosed S g L (pick S) hn inv
        obtain ⟨Lf, netf, hrun, h1, h2, h3, h4⟩ := ih
          ((outb (pick S)).foldl (kahnEdge (pick S)) (S.erase (pick S), g)).1
          ((outb (pick S)).foldl (kahnEdge (pick S)) (S.erase (pick S), g)).2
          (L ++ [pick S]) (inject feed ideal net (pick S)) inv2
          (by rw [List.length_append]; simp; omega)
        refine ⟨Lf, netf, ?_, h1, h2, h3, h4⟩
        rw [kahnAux, if_neg hS]
        exact hrun

/-- A nonempty subset of R with no internal predecessors contradicts the
exhausted ready condition: completeness of the final list. -/
lemma kahn_complete (outb : Nat → List Nat) (R : Finset Nat) (rank : Nat → Nat)
    (hrho : ∀ p m, m ∈ outb p → rank p < rank m) (Lf : List Nat)
    (hfilter : R.filter (fun x => x ∉ Lf ∧ predsIn outb R x ⊆ Lf.toFinset) = ∅) :
    ∀ x ∈ R, x ∈ Lf := by
  by_contra hno
  push_neg at hno
  obtain ⟨x0, hx0R, hx0L⟩ := hno
  have hne : (R.filter (fun x => x ∉ Lf)).Nonempty :=
    ⟨x0, Finset.mem_filter.2 ⟨hx0R, hx0L⟩⟩
  obtain ⟨m, hm, hmin⟩ := Finset.exists_min_image _ rank hne
  have hmf := Finset.mem_filter.1 hm
  have hnotready : ¬(m ∉ Lf ∧ predsIn outb R m ⊆ Lf.toFinset) := by
    intro hc
    have : m ∈ R.filter (fun x => x ∉ Lf ∧ predsIn outb R x ⊆ Lf.toFinset) :=
      Finset.mem_filter.2 ⟨hmf.1, hc⟩
    rw [hfilter] at this
    exact absurd this (Finset.not_mem_empty m)
  have hpreds : ¬ predsIn outb R m ⊆ Lf.toFinset := by
    intro hc
    exact hnotready ⟨hmf.2, hc⟩
  have hex : ∃ p ∈ predsIn outb R m, p ∉ Lf.toFinset := by
    by_contra hno2
    push_neg at hno2
    exact hpreds (fun p hp => hno2 p hp)
  obtain ⟨p, hp, hpL⟩ := hex
  have hpf := Finset.mem_filter.1 hp
  have hpT : p ∈ R.filter (fun x => x ∉ Lf) :=
    Finset.mem_filter.2 ⟨hpf.1, fun hc => hpL (List.mem_toFinset.2 hc)⟩
  have := hmin p hpT
  have := hrho p m hpf.2
  omega

/-- Case analysis on a reachability derivation. -/
lemma reach_cases {outb : Nat → List Nat} {entries : List Nat} {x : Nat}
    (h : Reach outb entries x) :
    x ∈ entries ∨ ∃ q, Reach outb entries q ∧ x ∈ outb q := by
  cases h with
  | entry h2 => exact Or.inl h2
  | step hq hout => exact Or.inr ⟨_, hq, hout⟩

/-- C1: on an acyclic graph (witnessed by a topological numbering of the
successor edges), with in-range edges, whose designated entry nodes are
the distinct feed keys and are genuine Input nodes (no predecessor), and
whose wiring is symmetric, topological_sort returns — for every
sufficiently large fuel bound, i.e. the loops terminate — a sequence that
contains exactly the nodes reachable from the entries, each exactly once,
and in which every node appears only after its predecessor. -/
theorem C1_topological_sort_correct {α : Type} [Field α]
    (net : Net α) (feed : List (Nat × Mat α)) (ideal : Mat α)
    (pick : Finset Nat → Nat) (rank : Nat → Nat)
    (hpick : ∀ s : Finset Nat, s ≠ ∅ → pick s ∈ s)
    (hrank : ∀ i j, j ∈ outboundOf net i → rank i < rank j)
    (hsub : ∀ i j, j ∈ outboundOf net i → j < net.length)
    (hentry : ∀ e ∈ feed.map Prod.fst, e < net.length)
    (hentrypred : ∀ e ∈ feed.map Prod.fst, (net.getD e defaultNode).input_layer = none)
    (hsym : ∀ p j, j < net.length →
        (j ∈ outboundOf net p ↔ (net.getD j defaultNode).input_layer = some p)) :
    ∃ F : Nat, ∀ fuel, F ≤ fuel →
      ∃ (L : List Nat) (net2 : Net α),
        topological_sort pick fuel net feed ideal = some (L, net2) ∧
        (∀ m, m ∈ L ↔ Reach (outboundOf net) (feed.map Prod.fst) m) ∧
        (∀ m, Reach (outboundOf net) (feed.map Prod.fst) m → L.count m = 1) ∧
        (∀ m k, k < L.length → L.getD k 0 = m →
          ∀ p, (net.getD m defaultNode).input_layer = some p →
            ∃ k2, k2 < k ∧ L.getD k2 0 = p) := by
  set B := (Finset.range net.length).sup rank + 1 with hBdef
  have hB : ∀ i, i < net.length → rank i < B := by
    intro i hi
    have hle : rank i ≤ (Finset.range net.length).sup rank :=
      Finset.le_sup (by simpa using hi)
    omega
  set F0 := ((feed.map Prod.fst).map (cnt (outboundOf net) B)).sum with hF0
  obtain ⟨t, ht⟩ := bfs_terminates (outboundOf net) net.length B rank hsub hrank hB
    (by omega) F0 (feed.map Prod.fst) (le_refl _)
  have htsub := bfsTrace_sub (outboundOf net) F0 _ t ht
  have htreach : ∀ x ∈ t, Reach (outboundOf net) (feed.map Prod.fst) x :=
    bfsTrace_reach _ _ F0 _ t ht (fun x hx => Reach.entry hx)
  have htcomp : ∀ x, Reach (outboundOf net) (feed.map Prod.fst) x → x ∈ t :=
    reach_mem_trace _ _ F0 t ht
  set R := t.toFinset with hR
  have hclosed : ∀ p, p ∈ R → ∀ m, m ∈ outboundOf net p → m ∈ R := fun p hp m hm =>
    List.mem_toFinset.2 (htsub.2 p (List.mem_toFinset.1 hp) m hm)
  set g0 := applyTrace (outboundOf net) ⟨fun _ => ∅, fun _ => ∅⟩ t with hg0
  have hgin0 : ∀ m, g0.gin m = predsIn (outboundOf net) R m := by
    intro m
    ext p
    rw [hg0, gin_applyTrace]
    simp [predsIn, hR]
  have hinv : KInv (outboundOf net) R (feed.map Prod.fst).toFinset g0.gin [] := by
    constructor
    · exact List.nodup_nil
    · simp
    · intro m
      rw [hgin0 m]
      simp
    · ext x
      rw [Finset.mem_filter, List.mem_toFinset]
      constructor
      · intro hx
        refine ⟨List.mem_toFinset.2 (htsub.1 x hx), by simp, ?_⟩
        intro p hp
        exfalso
        have hpfil := Finset.mem_filter.1 hp
        have hxN : x < net.length := hentry x hx
        have h2 := (hsym p x hxN).1 hpfil.2
        rw [hentrypred x hx] at h2
        cases h2
      · rintro ⟨hxR, _, hsub0⟩
        rcases reach_cases (htreach x (List.mem_toFinset.1 hxR)) with h | ⟨q, hq, hout⟩
        · exact h
        · exfalso
          have hqR : q ∈ R := List.mem_toFinset.2 (htcomp q hq)
          have hmemp : q ∈ predsIn (outboundOf net) R x :=
            Finset.mem_filter.2 ⟨hqR, hout⟩
          have hfalse := hsub0 hmemp
          simp at hfalse
    · intro p m _ _ k hk
      simp at hk
  refine ⟨max F0 R.card, fun fuel hfuel => ?_⟩
  have hbg : buildG (outboundOf net) fuel (feed.map Prod.fst) ⟨fun _ => ∅, fun _ => ∅⟩
      = some g0 := by
    rw [buildG_eq_trace,
      bfsTrace_mono _ F0 _ t ht fuel (le_trans (le_max_left _ _) hfuel)]
    rfl
  obtain ⟨Lf, netf, hrun, hnodupf, hsubf, horder, hfilter⟩ :=
    kahn_run pick (outboundOf net) feed ideal R rank hpick hrank hclosed fuel
      (feed.map Prod.fst).toFinset g0 [] net hinv
      (by simpa using le_trans (le_max_right _ _) hfuel)
  have hcompl : ∀ x ∈ R, x ∈ Lf := kahn_complete (outboundOf net) R rank hrank Lf hfilter
  refine ⟨Lf, netf, ?_, ?_, ?_, ?_⟩
  · unfold topological_sort
    simp only
    rw [hbg]
    exact hrun
  · intro m
    constructor
    · intro hm
      exact htreach m (List.mem_toFinset.1 (hsubf m hm))
    · intro hm
      exact hcompl m (List.mem_toFinset.2 (htcomp m hm))
  · intro m hm
    exact List.count_eq_one_of_mem hnodupf (hcompl m (List.mem_toFinset.2 (htcomp m hm)))
  · intro m k hk hkm p hpred
    have hmL : m ∈ Lf := by
      rw [← hkm]
      exact getD_mem hk
    have hmR : m ∈ R := hsubf m hmL
    have hmreach := htreach m (List.mem_toFinset.1 hmR)
    have hmN : m < net.length := by
      rcases reach_cases hmreach with h | ⟨q, hq, hout⟩
      · exact hentry m h
      · exact hsub q m hout
    have hedge : m ∈ outboundOf net p := (hsym p m hmN).2 hpred
    have hpR : p ∈ R := by
      rcases reach_cases hmreach with h | ⟨q, hq, hout⟩
      · rw [hentrypred m h] at hpred
        cases hpred
      · have hqid := (hsym q m hmN).1 hout
        rw [hpred] at hqid
        have hqp : p = q := Option.some.inj hqid
        rw [hqp]
        exact List.mem_toFinset.2 (htcomp q hq)
    exact horder p m hpR hedge k hk hkm

/-! Concrete witnesses: each theorem with hypotheses applied to an
explicit small graph, every hypothesis discharged by computation. -/

/-- A concrete set-pop: the minimum, standing in for Python set.pop. -/
def pickMin (s : Finset Nat) : Nat := s.min.getD 0

lemma pickMin_mem (s : Finset Nat) (h : s ≠ ∅) : pickMin s ∈ s := by
  obtain ⟨m, hm⟩ := Finset.min_of_nonempty (Finset.nonempty_iff_ne_empty.2 h)
  rw [pickMin, hm]
  exact Finset.mem_of_min hm

/-- A three-node chain 0 -> 1 -> 2 with symmetric wiring. -/
def chainNet : Net ℚ :=
  [ { defaultNode with outbound_layers := [1] }
  , { defaultNode with input_layer := some 0, outbound_layers := [2] }
  , { defaultNode with input_layer := some 1 } ]

lemma chainNet_out_ge : ∀ i, 3 ≤ i → outboundOf chainNet i = [] := by
  intro i hi
  unfold outboundOf
  rw [List.getD_eq_default _ _ (by rw [show chainNet.length = 3 from rfl]; omega)]
  rfl

theorem C1_topological_sort_correct_witness :
    ∃ F : Nat, ∀ fuel, F ≤ fuel →
      ∃ (L : List Nat) (net2 : Net ℚ),
        topological_sort pickMin fuel chainNet [(0, [])] [] = some (L, net2) ∧
        (∀ m, m ∈ L ↔ Reach (outboundOf chainNet) ([((0 : Nat), ([] : Mat ℚ))].map Prod.fst) m) ∧
        (∀ m, Reach (outboundOf chainNet) ([((0 : Nat), ([] : Mat ℚ))].map Prod.fst) m →
          L.count m = 1) ∧
        (∀ m k, k < L.length → L.getD k 0 = m →
          ∀ p, (chainNet.getD m defaultNode).input_layer = some p →
            ∃ k2, k2 < k ∧ L.getD k2 0 = p) := by
  apply C1_topological_sort_correct chainNet [(0, [])] [] pickMin id pickMin_mem
  · intro i j hj
    rcases i with _ | _ | _ | i
    · rw [show outboundOf chainNet 0 = [1] from rfl] at hj
      have hje : j = 1 := by simpa using hj
      subst hje
      decide
    · rw [show outboundOf chainNet 1 = [2] from rfl] at hj
      have hje : j = 2 := by simpa using hj
      subst hje
      decide
    · rw [show outboundOf chainNet 2 = [] from rfl] at hj
      simp at hj
    · rw [chainNet_out_ge (i + 3) (by omega)] at hj
      simp at hj
  · intro i j hj
    rcases i with _ | _ | _ | i
    · rw [show outboundOf chainNet 0 = [1] from rfl] at hj
      have hje : j = 1 := by simpa using hj
      subst hje
      decide
    · rw [show outboundOf chainNet 1 = [2] from rfl] at hj
      have hje : j = 2 := by simpa using hj
      subst hje
      decide
    · rw [show outboundOf chainNet 2 = [] from rfl] at hj
      simp at hj
    · rw [chainNet_out_ge (i + 3) (by omega)] at hj
      simp at hj
  · intro e he
    simp at he
    subst he
    decide
  · intro e he
    simp at he
    subst he
    rfl
  · intro p j hj
    rcases Nat.lt_or_ge p 3 with hp | hp
    · rw [show chainNet.length = 3 from rfl] at hj
      interval_cases p <;> interval_cases j <;> decide
    · constructor
      · intro h
        rw [chainNet_out_ge p hp] at h
        simp at h
      · intro h
        exfalso
        rw [show chainNet.length = 3 from rfl] at hj
        interval_cases j
        · rw [show (chainNet.getD 0 defaultNode).input_layer = none from rfl] at h
          cases h
        · rw [show (chainNet.getD 1 defaultNode).input_layer = some 0 from rfl] at h
          have := Option.some.inj h
          omega
        · rw [show (chainNet.getD 2 defaultNode).input_layer = some 1 from rfl] at h
          have := Option.some.inj h
          omega

theorem C3_cross_entropy_forward_witness :
    ((crossEntropyForward (fun x : ℚ => x)
        { defaultNode with value := [[1/2, 1/2]] }
        { defaultNode with num_images := 1, ideal_output := [[1, 0]] }).tmp_value.getD 0 0
      = -∑ c ∈ Finset.range
          ((({ defaultNode with num_images := 1, ideal_output := [[(1 : ℚ), 0]] }
              : Node ℚ).ideal_output.getD 0 []).length),
          (({ defaultNode with num_images := 1, ideal_output := [[(1 : ℚ), 0]] }
              : Node ℚ).ideal_output.getD 0 []).getD c 0
            * (fun x : ℚ => x)
                ((({ defaultNode with value := [[(1 : ℚ)/2, 1/2]] }
                    : Node ℚ).value.getD 0 []).getD c 0))
    ∧ (crossEntropyForward Real.log { defaultNode with value := [[1/2, 1/2]] }
        { defaultNode with num_images := 1, ideal_output := [[1, 0]] }).valueScalar
      = -Real.log (1/2) := by
  constructor
  · exact (C3_cross_entropy_forward (fun x : ℚ => x)).1
      { defaultNode with value := [[1/2, 1/2]] }
      { defaultNode with num_images := 1, ideal_output := [[1, 0]] } 0
      (by decide) (by decide)
  · exact (C3_cross_entropy_forward Real.log).2.2
      { defaultNode with value := [[1/2, 1/2]] }
      { defaultNode with num_images := 1, ideal_output := [[1, 0]] } rfl rfl rfl

theorem C4_softmax_forward_witness :
    (((softmaxForward (fun x : ℚ => x)
        { defaultNode with value := [[1, 2]] }
        { defaultNode with num_images := 1 }).value.getD 0 []).getD 0 0
      = (fun x : ℚ => x)
          ((({ defaultNode with value := [[(1 : ℚ), 2]] } : Node ℚ).value.getD 0 []).getD 0 0)
        / ∑ k ∈ Finset.range
            ((({ defaultNode with value := [[(1 : ℚ), 2]] } : Node ℚ).value.getD 0 []).length),
            (fun x : ℚ => x)
              ((({ defaultNode with value := [[(1 : ℚ), 2]] } : Node ℚ).value.getD 0 []).getD k 0))
    ∧ (softmaxForward Real.exp { defaultNode with value := [[0, 0]] }
        { defaultNode with num_images := 1 }).value = [[1/2, 1/2]] := by
  constructor
  · exact (C4_softmax_forward (fun x : ℚ => x)).1
      { defaultNode with value := [[1, 2]] } { defaultNode with num_images := 1 } 0 0
      (by decide) (by decide)
  · exact (C4_softmax_forward Real.exp).2
      { defaultNode with value := [[0, 0]] } { defaultNode with num_images := 1 } rfl rfl

/-- The 1-sample Input layer used in the C5 witness, with its batch. -/
def witInput : Node ℚ := inputSet [[1, 2]] (inputInit [[[1, 0], [0, 1]]] [[5, 6]])

theorem C5_affine_forward_value_witness :
    ((inputForward witInput).value.getD 0 []).getD 0 0
      = (∑ k ∈ Finset.range (witInput.X.getD 0 []).length,
          (witInput.X.getD 0 []).getD k 0 * ((witInput.W.getD 0 []).getD k []).getD 0 0)
        + (witInput.biases.getD 0 []).getD 0 0 := by
  exact (C5_affine_forward_value).1 witInput 0 0 (by decide) (by decide) (by decide) (by decide)

/-- The two-node net used in the C6 witness: an affine node wired to a
successor that carries gradients. -/
def witBackNet : Net ℚ :=
  [ { defaultNode with
        kind := Kind.input, outbound_layers := [1], num_images := 1,
        W := [[[1, 0], [0, 1]]], biases := [[5, 6]] },
    { defaultNode with gradients := [[3, 4]] } ]

theorem C6_affine_backward_witness :
    ∃ ig : Mat ℚ,
      ig = (witBackNet.getD
          ((witBackNet.getD 0 defaultNode).outbound_layers.getD 0 0) defaultNode).gradients ∧
      (nodeBackward witBackNet 0).input_gradients = ig ∧
      ∀ i : Nat, i < (witBackNet.getD 0 defaultNode).num_images →
        (∀ k : Nat, k < ((witBackNet.getD 0 defaultNode).W.getD i []).length →
          (((witBackNet.getD 0 defaultNode).W.getD i []).getD k []).length
              = (ig.getD i []).length →
          ((nodeBackward witBackNet 0).W_gradients.getD i []).getD k 0
            = ∑ r ∈ Finset.range
                ((((witBackNet.getD 0 defaultNode).W.getD i []).getD k []).length),
                (((witBackNet.getD 0 defaultNode).W.getD i []).getD k []).getD r 0
                  * (ig.getD i []).getD r 0) ∧
        ((ig.getD i []).length = ((witBackNet.getD 0 defaultNode).biases.getD i []).length →
          (nodeBackward witBackNet 0).b_gradients.getD i 0
            = ∑ r ∈ Finset.range ((ig.getD i []).length),
                (ig.getD i []).getD r 0
                  * (((witBackNet.getD 0 defaultNode).biases.getD i []).getD r 0)) ∧
        (∀ k : Nat, k < ((witBackNet.getD 0 defaultNode).W.getD i []).length →
          ((nodeBackward witBackNet 0).gradients.getD i []).getD k 0
            = ((nodeBackward witBackNet 0).W_gradients.getD i []).getD k 0
              * (nodeBackward witBackNet 0).b_gradients.getD i 0) :=
  C6_affine_backward witBackNet 0 (witBackNet.getD 0 defaultNode) rfl
    (Or.inl (show (witBackNet.getD 0 defaultNode).kind = Kind.input from rfl))
    (by decide)

theorem C7_sgd_update_skips_mismatch_witness :
    ∃ res : List (NTensor ℚ),
      sgdUpdate 1 [⟨[2], [10, 20]⟩, ⟨[1], [30]⟩] [⟨[2], [1, 2]⟩, ⟨[3], [1, 1, 1]⟩]
          = some res ∧
      res.length = ([⟨[2], [10, 20]⟩, ⟨[1], [30]⟩] : List (NTensor ℚ)).length ∧
      ((([⟨[2], [10, 20]⟩, ⟨[1], [30]⟩] : List (NTensor ℚ)).getD 0 ⟨[], []⟩).shape
          = (([⟨[2], [1, 2]⟩, ⟨[3], [1, 1, 1]⟩] : List (NTensor ℚ)).getD 0 ⟨[], []⟩).shape →
        res.getD 0 ⟨[], []⟩
          = NTensor.sub (([⟨[2], [10, 20]⟩, ⟨[1], [30]⟩] : List (NTensor ℚ)).getD 0 ⟨[], []⟩)
              (NTensor.smul 1
                (([⟨[2], [1, 2]⟩, ⟨[3], [1, 1, 1]⟩] : List (NTensor ℚ)).getD 0 ⟨[], []⟩)) ∧
        ∀ k : Nat,
          k < ((([⟨[2], [10, 20]⟩, ⟨[1], [30]⟩] : List (NTensor ℚ)).getD 0 ⟨[], []⟩)).data.length →
          k < ((([⟨[2], [1, 2]⟩, ⟨[3], [1, 1, 1]⟩] : List (NTensor ℚ)).getD 0 ⟨[], []⟩)).data.length →
          (res.getD 0 ⟨[], []⟩).data.getD k 0
            = ((([⟨[2], [10, 20]⟩, ⟨[1], [30]⟩] : List (NTensor ℚ)).getD 0 ⟨[], []⟩)).data.getD k 0
              - 1 * ((([⟨[2], [1, 2]⟩, ⟨[3], [1, 1, 1]⟩] : List (NTensor ℚ)).getD 0 ⟨[], []⟩)).data.getD k 0) ∧
      ((([⟨[2], [10, 20]⟩, ⟨[1], [30]⟩] : List (NTensor ℚ)).getD 0 ⟨[], []⟩).shape
          ≠ (([⟨[2], [1, 2]⟩, ⟨[3], [1, 1, 1]⟩] : List (NTensor ℚ)).getD 0 ⟨[], []⟩).shape →
        res.getD 0 ⟨[], []⟩ = ([⟨[2], [10, 20]⟩, ⟨[1], [30]⟩] : List (NTensor ℚ)).getD 0 ⟨[], []⟩) :=
  C7_sgd_update_skips_mismatch 1 [⟨[2], [10, 20]⟩, ⟨[1], [30]⟩]
    [⟨[2], [1, 2]⟩, ⟨[3], [1, 1, 1]⟩] 0 (by decide) (by decide)

/-- The two-node net used in the C8 witness: node 1 is a fresh Input-kind
node whose predecessor slot is empty. -/
def witIdemNet : Net ℚ :=
  [ { defaultNode with value := [[7, 8]], num_images := 1, num_classes := 2 }
  , { defaultNode with kind := Kind.softmax, input_layer := some 0, num_images := 1 } ]

theorem C8_forward_idempotent_witness :
    ((forwardAt (fun x : ℚ => x) (fun x : ℚ => x)
        (forwardAt (fun x : ℚ => x) (fun x : ℚ => x) witIdemNet 1) 1).getD 1 defaultNode).value
      = ((forwardAt (fun x : ℚ => x) (fun x : ℚ => x) witIdemNet 1).getD 1 defaultNode).value
    ∧ ((forwardAt (fun x : ℚ => x) (fun x : ℚ => x)
        (forwardAt (fun x : ℚ => x) (fun x : ℚ => x) witIdemNet 1) 1).getD 1 defaultNode).valueScalar
      = ((forwardAt (fun x : ℚ => x) (fun x : ℚ => x) witIdemNet 1).getD 1 defaultNode).valueScalar :=
  C8_forward_idempotent (fun x : ℚ => x) (fun x : ℚ => x) witIdemNet 1 (by decide)

/-- The construction sequence used in the C10 witness: Input -> Softmax ->
CrossEntropy. -/
def witSpecs : List (LSpec ℚ) :=
  [LSpec.inputL [[[1, 0], [0, 1]]] [[0, 0]], LSpec.softmaxL 0, LSpec.crossL 1]

theorem C10_wiring_symmetric_immutable_witness :
    ∀ i j, j ∈ outboundOf (buildNet witSpecs) i
      ↔ ((buildNet witSpecs).getD j defaultNode).input_layer = some i := by
  apply (C10_wiring_symmetric_immutable (α := ℚ)).1 witSpecs
  intro k hk p hp
  rw [show witSpecs.length = 3 from rfl] at hk
  interval_cases k
  · rw [show specPred (witSpecs.getD 0 (LSpec.inputL [] [])) = (none : Option Nat) from rfl] at hp
    cases hp
  · rw [show specPred (witSpecs.getD 1 (LSpec.inputL [] [])) = some 0 from rfl] at hp
    have := Option.some.inj hp
    omega
  · rw [show specPred (witSpecs.getD 2 (LSpec.inputL [] [])) = some 1 from rfl] at hp
    have := Option.some.inj hp
    omega

end Xiaonet
